import Mathlib

/-!
Verification of the aggregation engine of `src/moonblade/agg.rs`.

The accumulator atoms, the composite aggregator, the planner and the two
streaming driver programs are embedded as executable Lean definitions that
mirror the Rust source line by line.  The value model (`DynamicNumber`,
`DynamicValue`), the expression interpreter and the aggregation parser live
outside the provided sources; the few operations of theirs that the
aggregation code calls are modelled from the specification and are marked
`Modelled from the spec:` in their doc comments.

Machine floats (`f64`) are modelled exactly: a float is either NaN or an
exact rational.  Infinities never arise on the verified code paths and are
not modelled; a division by zero is mapped to NaN.
-/

namespace Xan

/-- Model of a Rust `f64`: NaN, or an exact finite value as a rational.
Infinities are not modelled (no verified code path produces one). -/
inductive F64 where
  | nan : F64
  | fin (q : ℚ) : F64
deriving DecidableEq

namespace F64

/-- Float addition; NaN propagates. -/
def add : F64 → F64 → F64
  | fin a, fin b => fin (a + b)
  | _, _ => nan

/-- Float subtraction; NaN propagates. -/
def sub : F64 → F64 → F64
  | fin a, fin b => fin (a - b)
  | _, _ => nan

/-- Float multiplication; NaN propagates. -/
def mul : F64 → F64 → F64
  | fin a, fin b => fin (a * b)
  | _, _ => nan

/-- Float division; NaN propagates.  A zero divisor yields NaN in the model
(real `f64` produces an infinity there, but no verified code path divides
by zero). -/
def div : F64 → F64 → F64
  | fin a, fin b => if b = 0 then nan else fin (a / b)
  | _, _ => nan

/-- Real value of a float, for the square-root layer; NaN is mapped to `0`,
a junk value no theorem depends on (theorems about square roots only reach
finite states). -/
noncomputable def toReal : F64 → ℝ
  | fin q => (q : ℝ)
  | nan => 0

/-- Modelled from the spec: `f64::sqrt` has no exact representative in this
rational float model, so the rounded magnitude is collapsed to NaN.  The
`Option` plumbing around it is kept faithfully and the exact square root is
reasoned about over `ℝ` via `Welford.stdev` instead; no verified claim
inspects the value produced here. -/
def sqrtApprox : F64 → F64 := fun _ => nan

end F64

/-- Model of `DynamicNumber` (from `moonblade/types.rs`, not under the
provided sources): a signed machine integer or a float.  The integer is
modelled as an unbounded `ℤ` (no verified code path overflows). -/
inductive DynamicNumber where
  | Integer (i : ℤ)
  | Float (f : F64)
deriving DecidableEq

namespace DynamicNumber

/-- Whether the number is a float NaN. -/
def isNan : DynamicNumber → Bool
  | Float .nan => true
  | _ => false

/-- Numeric value of a non-NaN number; NaN is mapped to the junk value `0`
(only used under a non-NaN hypothesis). -/
def toRatD : DynamicNumber → ℚ
  | Integer i => (i : ℚ)
  | Float (.fin q) => q
  | Float .nan => 0

/-- Sort key realising the documented total order: numeric order on
non-NaN values, NaN last (`⊤`). -/
def dnKey : DynamicNumber → WithTop ℚ
  | Integer i => ((i : ℚ) : WithTop ℚ)
  | Float (.fin q) => (q : WithTop ℚ)
  | Float .nan => ⊤

/-- Modelled from the spec (§3): `Comparison is total over non-NaN; NaN
sorts last.`  The comparison the source obtains from `PartialOrd` on
`DynamicNumber` is therefore total and never returns `None`. -/
def cmpOpt (a b : DynamicNumber) : Option Ordering :=
  some (if a.dnKey < b.dnKey then .lt else if a.dnKey = b.dnKey then .eq else .gt)

/-- The non-strict order induced by the sort key (used to state sortedness). -/
def dnle (a b : DynamicNumber) : Prop := a.dnKey ≤ b.dnKey

instance : DecidableRel dnle := fun a b => by unfold dnle; infer_instance

instance : IsTotal DynamicNumber dnle := ⟨fun a b => le_total a.dnKey b.dnKey⟩

instance : IsTrans DynamicNumber dnle := ⟨fun _ _ _ h h' => le_trans h h'⟩

/-- Boolean strict order, as used by `Extent::add`. -/
def dnltB (a b : DynamicNumber) : Bool := decide (a.dnKey < b.dnKey)

/-- Both operands as floats (integer promoted). -/
def toF64 : DynamicNumber → F64
  | Integer i => .fin (i : ℚ)
  | Float f => f

/-- Modelled from the spec (§3): `Arithmetic promotes Integer to Float on
mixed operands`; NaN propagates through float arithmetic. -/
def addNum : DynamicNumber → DynamicNumber → DynamicNumber
  | Integer a, Integer b => Integer (a + b)
  | a, b => Float (F64.add a.toF64 b.toF64)

/-- Modelled from the spec (§3): arithmetic promotes to Float `on any
division`. -/
def divNum : DynamicNumber → DynamicNumber → DynamicNumber
  | a, b => Float (F64.div a.toF64 b.toF64)

end DynamicNumber

/-- Error kind raised by value coercions, from the taxonomy of §7 (the
`CallError` type lives outside the provided sources). -/
inductive CallError where
  | CannotCoerceToNumber
  | CannotCoerceToString
  | ColumnOutOfRange
deriving DecidableEq

/-- Model of `DynamicValue` (from `moonblade/types.rs`, not under the
provided sources).  The composite list/map variants belong to the
expression language and are never fed to aggregation atoms; they are not
modelled. -/
inductive DynamicValue where
  | Integer (i : ℤ)
  | Float (f : F64)
  | Str (s : String)
  | Boolean (b : Bool)
  | None
deriving DecidableEq

namespace DynamicValue

/-- Modelled from the spec (§3): `is_nullish` is true for None and empty
String. -/
def is_nullish : DynamicValue → Bool
  | None => true
  | Str s => s.isEmpty
  | _ => false

/-- Modelled from the spec (§3): `is_truthy` is false for None, false
Boolean, 0 Integer, 0.0/NaN Float, and empty String. -/
def is_truthy : DynamicValue → Bool
  | None => false
  | Boolean b => b
  | Integer i => decide (i ≠ 0)
  | Float (.fin q) => decide (q ≠ 0)
  | Float .nan => false
  | Str s => !s.isEmpty

/-- Modelled from the spec (§3): `try_as_number` `parses String as number`.
The model accepts decimal digit strings (the only number literals the
verified claims exercise); everything else fails to parse. -/
def parseNumber (s : String) : Option DynamicNumber :=
  if s.length ≠ 0 ∧ s.toList.all Char.isDigit then
    some (.Integer (s.toList.foldl (fun n c => n * 10 + ((c.toNat : ℤ) - 48)) 0))
  else
    Option.none

/-- Modelled from the spec (§3): `try_as_number` accepts Integer/Float
as-is, parses String as number, and fails otherwise with a typed error. -/
def try_as_number : DynamicValue → Except CallError DynamicNumber
  | Integer i => .ok (.Integer i)
  | Float f => .ok (.Float f)
  | Str s =>
    match parseNumber s with
    | some n => .ok n
    | Option.none => .error .CannotCoerceToNumber
  | _ => .error .CannotCoerceToNumber

/-- Modelled from the spec (§3): `try_as_f64` additionally coerces Integer
to Float. -/
def try_as_f64 (v : DynamicValue) : Except CallError F64 :=
  (v.try_as_number).map DynamicNumber.toF64

/-- Modelled from the spec (§3/§6): canonical textual form of a float. -/
def floatRepr : F64 → String
  | .nan => "nan"
  | .fin q => toString q

/-- Modelled from the spec (§3): `try_as_str` returns the string form
(lossless for String; canonical decimal for numbers; true/false for
Boolean; empty for None). -/
def try_as_str : DynamicValue → Except CallError String
  | Str s => .ok s
  | Integer i => .ok (toString i)
  | Float f => .ok (floatRepr f)
  | Boolean b => .ok (if b then "true" else "false")
  | None => .ok ""

/-- Modelled from the spec (§6): value serialization at the output
boundary — Integer as decimal, Boolean as true/false, None as empty bytes,
String passed through.  Records are modelled as lists of strings. -/
def serialize_as_bytes : DynamicValue → String
  | Integer i => toString i
  | Float f => floatRepr f
  | Boolean b => if b then "true" else "false"
  | None => ""
  | Str s => s

/-- `DynamicValue::from(usize)` (types.rs conversion). -/
def ofNat (n : ℕ) : DynamicValue := Integer (n : ℤ)

/-- `DynamicValue::from(DynamicNumber)` (types.rs conversion). -/
def ofNumber : DynamicNumber → DynamicValue
  | .Integer i => Integer i
  | .Float f => Float f

/-- `DynamicValue::from(Option<DynamicNumber>)`: `None` becomes the value
model's None variant. -/
def ofOptNumber : Option DynamicNumber → DynamicValue
  | some n => ofNumber n
  | Option.none => None

/-- `DynamicValue::from(Option<DynamicValue>)`. -/
def ofOptValue : Option DynamicValue → DynamicValue
  | some v => v
  | Option.none => None

/-- `DynamicValue::from(Option<String>)`. -/
def ofOptStr : Option String → DynamicValue
  | some s => Str s
  | Option.none => None

/-- `DynamicValue::from(Option<f64>)`. -/
def ofOptF64 : Option F64 → DynamicValue
  | some f => Float f
  | Option.none => None

end DynamicValue

/-- `struct Count` (agg.rs:11-32). -/
structure Count where
  current : ℕ
deriving DecidableEq

namespace Count

def new : Count := ⟨0⟩

def clear (_ : Count) : Count := new

def add (c : Count) : Count := ⟨c.current + 1⟩

def get (c : Count) : ℕ := c.current

end Count

/-- `struct AllAny` (agg.rs:34-65). -/
structure AllAny where
  all : Bool
  any : Bool
deriving DecidableEq

namespace AllAny

def new : AllAny := ⟨true, false⟩

def clear (_ : AllAny) : AllAny := new

def add (c : AllAny) (new_bool : Bool) : AllAny :=
  ⟨c.all && new_bool, c.any || new_bool⟩

end AllAny

/-- `struct FirstLast` (agg.rs:67-101).  The `Rc` handle is modelled by the
value itself. -/
structure FirstLast where
  first : Option (ℕ × DynamicValue)
  last : Option (ℕ × DynamicValue)
deriving DecidableEq

namespace FirstLast

def new : FirstLast := ⟨Option.none, Option.none⟩

def clear (_ : FirstLast) : FirstLast := new

def add (c : FirstLast) (index : ℕ) (next_value : DynamicValue) : FirstLast :=
  ⟨if c.first.isNone then some (index, next_value) else c.first,
   some (index, next_value)⟩

def firstVal (c : FirstLast) : Option DynamicValue := c.first.map (·.2)

def lastVal (c : FirstLast) : Option DynamicValue := c.last.map (·.2)

end FirstLast

/-- `struct Sum` (agg.rs:103-136). -/
structure Sum where
  current : DynamicNumber
deriving DecidableEq

namespace Sum

def new : Sum := ⟨.Integer 0⟩

def clear (_ : Sum) : Sum := new

/-- `Sum::add` (agg.rs:120-131): mixed Integer/Float promotes to Float and
stays Float. -/
def add (s : Sum) (value : DynamicNumber) : Sum :=
  match s.current, value with
  | .Float a, .Float b => ⟨.Float (F64.add a b)⟩
  | .Float a, .Integer b => ⟨.Float (F64.add a (.fin (b : ℚ)))⟩
  | .Integer a, .Float b => ⟨.Float (F64.add (.fin (a : ℚ)) b)⟩
  | .Integer a, .Integer b => ⟨.Integer (a + b)⟩

def get (s : Sum) : DynamicNumber := s.current

end Sum

/-- `struct Extent` (agg.rs:138-174). -/
structure Extent where
  extent : Option (DynamicNumber × DynamicNumber)
deriving DecidableEq

namespace Extent

def new : Extent := ⟨Option.none⟩

def clear (_ : Extent) : Extent := new

def add (c : Extent) (value : DynamicNumber) : Extent :=
  match c.extent with
  | Option.none => ⟨some (value, value)⟩
  | some (mn, mx) =>
    ⟨some (if DynamicNumber.dnltB value mn then value else mn,
           if DynamicNumber.dnltB mx value then value else mx)⟩

def min (c : Extent) : Option DynamicNumber := c.extent.map (·.1)

def max (c : Extent) : Option DynamicNumber := c.extent.map (·.2)

end Extent

/-- `struct LexicographicExtent` (agg.rs:176-212).  Rust compares strings
byte-wise; for UTF-8 that equals the code-point order Lean's `String`
order uses. -/
structure LexicographicExtent where
  extent : Option (String × String)
deriving DecidableEq

namespace LexicographicExtent

def new : LexicographicExtent := ⟨Option.none⟩

def clear (_ : LexicographicExtent) : LexicographicExtent := new

def add (c : LexicographicExtent) (value : String) : LexicographicExtent :=
  match c.extent with
  | Option.none => ⟨some (value, value)⟩
  | some (mn, mx) =>
    ⟨some (if value < mn then value else mn,
           if mx < value then value else mx)⟩

def firstStr (c : LexicographicExtent) : Option String := c.extent.map (·.1)

def lastStr (c : LexicographicExtent) : Option String := c.extent.map (·.2)

end LexicographicExtent

/-- `enum MedianType` (agg.rs:214-219). -/
inductive MedianType where
  | Interpolation
  | Low
  | High
deriving DecidableEq

/-- `struct Numbers` (agg.rs:221-284). -/
structure Numbers where
  numbers : List DynamicNumber
deriving DecidableEq

namespace Numbers

def new : Numbers := ⟨[]⟩

def clear (_ : Numbers) : Numbers := new

def add (ns : Numbers) (number : DynamicNumber) : Numbers :=
  ⟨ns.numbers ++ [number]⟩

/-- `Numbers::finalize` (agg.rs:242-244): `sort_by(partial_cmp .. unwrap)`.
The comparator is the total order of `DynamicNumber.cmpOpt` (which never
returns `None`, so the `unwrap` cannot panic); the stable Rust sort is
modelled by insertion sort over the induced non-strict order. -/
def finalize (ns : Numbers) : Numbers :=
  ⟨ns.numbers.insertionSort DynamicNumber.dnle⟩

/-- `Numbers::median` (agg.rs:246-283).  The vector indexings of the source
are in bounds (proved with the median theorem); the model supplies an
unused default. -/
def median (ns : Numbers) (median_type : MedianType) : Option DynamicNumber :=
  let count := ns.numbers.length
  if count = 0 then
    Option.none
  else
    some (match median_type with
      | .Low =>
        let midpoint := count / 2
        let midpoint := if count % 2 = 0 then midpoint - 1 else midpoint
        ns.numbers.getD midpoint (.Integer 0)
      | .High =>
        let midpoint := count / 2
        ns.numbers.getD midpoint (.Integer 0)
      | .Interpolation =>
        let midpoint := count / 2
        if count % 2 = 1 then
          ns.numbers.getD midpoint (.Integer 0)
        else
          let down := ns.numbers.getD (midpoint - 1) (.Integer 0)
          let up := ns.numbers.getD midpoint (.Integer 0)
          DynamicNumber.divNum (DynamicNumber.addNum down up) (.Float (.fin 2)))

end Numbers

/-- `struct Frequencies` (agg.rs:286-331).  The `HashMap<String, usize>` is
modelled as an association list with distinct keys; the list order stands
for the arbitrary iteration order of the hash map. -/
structure Frequencies where
  counter : List (String × ℕ)
deriving DecidableEq

namespace Frequencies

def new : Frequencies := ⟨[]⟩

def clear (_ : Frequencies) : Frequencies := new

/-- `Frequencies::add` (agg.rs:302-307): `entry(value).and_modify(+1).or_insert(1)`. -/
def add (f : Frequencies) (value : String) : Frequencies :=
  if f.counter.any (fun p => p.1 == value) then
    ⟨f.counter.map (fun p => if p.1 == value then (p.1, p.2 + 1) else p)⟩
  else
    ⟨f.counter ++ [(value, 1)]⟩

/-- The strict Rust tuple order `(count, key) > entry` used by `mode`. -/
def pairGtB (a b : ℕ × String) : Bool :=
  decide (b.1 < a.1) || (a.1 == b.1 && decide (b.2 < a.2))

/-- `Frequencies::mode` (agg.rs:309-326): running maximum of
`(count, key)` pairs over the iteration order. -/
def mode (f : Frequencies) : Option String :=
  (f.counter.foldl
    (fun mx p =>
      match mx with
      | Option.none => some (p.2, p.1)
      | some entry => if pairGtB (p.2, p.1) entry then some (p.2, p.1) else some entry)
    Option.none).map (·.2)

/-- `Frequencies::cardinality` (agg.rs:328-331). -/
def cardinality (f : Frequencies) : ℕ := f.counter.length

end Frequencies

/-- `struct Welford` (agg.rs:333-400), Welford's online algorithm. -/
structure Welford where
  count : ℕ
  mean : F64
  m2 : F64
deriving DecidableEq

namespace Welford

def new : Welford := ⟨0, .fin 0, .fin 0⟩

def clear (_ : Welford) : Welford := new

/-- `Welford::add` (agg.rs:356-367). -/
def add (w : Welford) (value : F64) : Welford :=
  let count := w.count + 1
  let delta := F64.sub value w.mean
  let mean := F64.add w.mean (F64.div delta (.fin (count : ℚ)))
  let delta2 := F64.sub value mean
  let m2 := F64.add w.m2 (F64.mul delta delta2)
  ⟨count, mean, m2⟩

/-- `Welford::mean` (agg.rs:369-375). -/
def meanOpt (w : Welford) : Option F64 :=
  if w.count = 0 then Option.none else some w.mean

/-- `Welford::variance` (agg.rs:377-383): population variance `M2/n`,
guarded by `count < 1`. -/
def variance (w : Welford) : Option F64 :=
  if w.count < 1 then Option.none else some (F64.div w.m2 (.fin (w.count : ℚ)))

/-- `Welford::sample_variance` (agg.rs:385-391): `M2/(n-1)`, guarded by
`count < 2`. -/
def sample_variance (w : Welford) : Option F64 :=
  if w.count < 2 then Option.none else some (F64.div w.m2 (.fin ((w.count - 1 : ℕ) : ℚ)))

/-- `Welford::stdev` (agg.rs:393-395): `variance().map(sqrt)`, with the
square root taken exactly over `ℝ`. -/
noncomputable def stdev (w : Welford) : Option ℝ :=
  (w.variance).map fun v => Real.sqrt v.toReal

/-- `Welford::sample_stdev` (agg.rs:397-399). -/
noncomputable def sample_stdev (w : Welford) : Option ℝ :=
  (w.sample_variance).map fun v => Real.sqrt v.toReal

end Welford

/-- `enum Aggregator` (agg.rs:402-442), generated by
`build_aggregation_method_enum!`. -/
inductive Aggregator where
  | AllAny (inner : AllAny)
  | Count (inner : Count)
  | Extent (inner : Extent)
  | FirstLast (inner : FirstLast)
  | LexicographicExtent (inner : LexicographicExtent)
  | Frequencies (inner : Frequencies)
  | Numbers (inner : Numbers)
  | Sum (inner : Sum)
  | Welford (inner : Welford)
deriving DecidableEq

/-- The constructor tag of an `Aggregator` (the "atom kind"). -/
inductive AtomKind where
  | AllAnyK | CountK | ExtentK | FirstLastK | LexK | FreqK | NumbersK | SumK | WelfordK
deriving DecidableEq

namespace Aggregator

def atomKind : Aggregator → AtomKind
  | AllAny _ => .AllAnyK
  | Count _ => .CountK
  | Extent _ => .ExtentK
  | FirstLast _ => .FirstLastK
  | LexicographicExtent _ => .LexK
  | Frequencies _ => .FreqK
  | Numbers _ => .NumbersK
  | Sum _ => .SumK
  | Welford _ => .WelfordK

/-- A freshly constructed atom of the given kind (`$variant::new()`). -/
def freshAtom : AtomKind → Aggregator
  | .AllAnyK => AllAny AllAny.new
  | .CountK => Count Count.new
  | .ExtentK => Extent Extent.new
  | .FirstLastK => FirstLast FirstLast.new
  | .LexK => LexicographicExtent LexicographicExtent.new
  | .FreqK => Frequencies Frequencies.new
  | .NumbersK => Numbers Numbers.new
  | .SumK => Sum Sum.new
  | .WelfordK => Welford Welford.new

/-- `Aggregator::clear` (agg.rs:412-418). -/
def clearAtom : Aggregator → Aggregator
  | AllAny inner => AllAny inner.clear
  | Count inner => Count inner.clear
  | Extent inner => Extent inner.clear
  | FirstLast inner => FirstLast inner.clear
  | LexicographicExtent inner => LexicographicExtent inner.clear
  | Frequencies inner => Frequencies inner.clear
  | Numbers inner => Numbers inner.clear
  | Sum inner => Sum inner.clear
  | Welford inner => Welford inner.clear

/-- `Aggregator::finalize` (agg.rs:420-427): only `Numbers` sorts. -/
def finalizeAtom : Aggregator → Aggregator
  | Numbers inner => Numbers inner.finalize
  | other => other

end Aggregator

/-- `enum ConcreteAggregationMethod` (agg.rs:698-718). -/
inductive ConcreteAggregationMethod where
  | All
  | Any
  | Cardinality
  | Count
  | First
  | Last
  | LexFirst
  | LexLast
  | Min
  | Max
  | Mean
  | Median (median_type : MedianType)
  | Mode
  | Sum
  | VarPop
  | VarSample
  | StddevPop
  | StddevSample
deriving DecidableEq

namespace ConcreteAggregationMethod

/-- `ConcreteAggregationMethod::parse` (agg.rs:720-746). -/
def parseName (name : String) : Option ConcreteAggregationMethod :=
  if name = "all" then some All
  else if name = "any" then some Any
  else if name = "cardinality" then some Cardinality
  else if name = "count" then some Count
  else if name = "first" then some First
  else if name = "last" then some Last
  else if name = "lex_first" then some LexFirst
  else if name = "lex_last" then some LexLast
  else if name = "min" then some Min
  else if name = "max" then some Max
  else if name = "avg" ∨ name = "mean" then some Mean
  else if name = "median" then some (Median .Interpolation)
  else if name = "median_high" then some (Median .High)
  else if name = "median_low" then some (Median .Low)
  else if name = "mode" then some Mode
  else if name = "var" ∨ name = "var_pop" then some VarPop
  else if name = "var_sample" then some VarSample
  else if name = "stddev" ∨ name = "stddev_pop" then some StddevPop
  else if name = "stddev_sample" then some StddevSample
  else if name = "sum" then some Sum
  else Option.none

/-- The atom kind an aggregation method is served by (the `match` of
`CompositeAggregator::add_method`, agg.rs:567-599, and the kind table of
spec §4.5). -/
def methodAtomKind : ConcreteAggregationMethod → AtomKind
  | All | Any => .AllAnyK
  | Count => .CountK
  | Min | Max => .ExtentK
  | First | Last => .FirstLastK
  | LexFirst | LexLast => .LexK
  | Median _ => .NumbersK
  | Mode | Cardinality => .FreqK
  | Sum => .SumK
  | Mean | VarPop | VarSample | StddevPop | StddevSample => .WelfordK

end ConcreteAggregationMethod

open ConcreteAggregationMethod (methodAtomKind) in
/-- `Aggregator::get_final_value` (agg.rs:444-501).  The `unreachable!`
catch-all arm is modelled by `none`. -/
def Aggregator.getFinalValue : Aggregator → ConcreteAggregationMethod → Option DynamicValue
  | .AllAny inner, .All => some (.Boolean inner.all)
  | .AllAny inner, .Any => some (.Boolean inner.any)
  | .Frequencies inner, .Cardinality => some (.ofNat inner.cardinality)
  | .Count inner, .Count => some (.ofNat inner.get)
  | .FirstLast inner, .First => some (.ofOptValue inner.firstVal)
  | .FirstLast inner, .Last => some (.ofOptValue inner.lastVal)
  | .LexicographicExtent inner, .LexFirst => some (.ofOptStr inner.firstStr)
  | .LexicographicExtent inner, .LexLast => some (.ofOptStr inner.lastStr)
  | .Extent inner, .Min => some (.ofOptNumber inner.min)
  | .Welford inner, .Mean => some (.ofOptF64 inner.meanOpt)
  | .Numbers inner, .Median median_type => some (.ofOptNumber (inner.median median_type))
  | .Extent inner, .Max => some (.ofOptNumber inner.max)
  | .Frequencies inner, .Mode => some (.ofOptStr inner.mode)
  | .Sum inner, .Sum => some (.ofNumber inner.get)
  | .Welford inner, .VarPop => some (.ofOptF64 inner.variance)
  | .Welford inner, .VarSample => some (.ofOptF64 inner.sample_variance)
  | .Welford inner, .StddevPop => some (.ofOptF64 ((inner.variance).map F64.sqrtApprox))
  | .Welford inner, .StddevSample => some (.ofOptF64 ((inner.sample_variance).map F64.sqrtApprox))
  | _, _ => Option.none

/-- `struct CompositeAggregator` (agg.rs:532-542). -/
structure CompositeAggregator where
  methods : List Aggregator
deriving DecidableEq

/-- First index holding an atom of the given kind
(`self.methods.iter().position(..)` of the `upsert_aggregator!` macro,
agg.rs:551-565). -/
def firstKindIdx : List Aggregator → AtomKind → Option ℕ
  | [], _ => Option.none
  | a :: rest, k =>
    if a.atomKind = k then some 0 else (firstKindIdx rest k).map (· + 1)

namespace CompositeAggregator

def new : CompositeAggregator := ⟨[]⟩

/-- `CompositeAggregator::clear` (agg.rs:544-548). -/
def clear (c : CompositeAggregator) : CompositeAggregator :=
  ⟨c.methods.map Aggregator.clearAtom⟩

/-- Body of `upsert_aggregator!` (agg.rs:551-565): return the index of the
existing atom of the kind, else push a fresh one. -/
def upsertAggregator (c : CompositeAggregator) (k : AtomKind) : ℕ × CompositeAggregator :=
  match firstKindIdx c.methods k with
  | some idx => (idx, c)
  | Option.none => (c.methods.length, ⟨c.methods ++ [Aggregator.freshAtom k]⟩)

/-- `CompositeAggregator::add_method` (agg.rs:550-600): dispatch the method
to its atom kind and upsert. -/
def add_method (c : CompositeAggregator) (method : ConcreteAggregationMethod) :
    ℕ × CompositeAggregator :=
  upsertAggregator c (ConcreteAggregationMethod.methodAtomKind method)

end CompositeAggregator

/-- Outcome of feeding one value to one atom: the updated atom, a call
error (raised by a `?` coercion before the atom is touched), or the
`unreachable!` arm of `process_value` (agg.rs:648). -/
inductive PErr where
  | call (e : CallError)
  | unreachableReached
deriving DecidableEq

/-- One arm of the `for` loop of `CompositeAggregator::process_value`
(agg.rs:602-654). -/
def processAtom (index : ℕ) (value_opt : Option DynamicValue) (a : Aggregator) :
    Except PErr Aggregator :=
  match value_opt with
  | some value =>
    match a with
    | .AllAny inner => .ok (.AllAny (inner.add value.is_truthy))
    | .Count inner => .ok (.Count (if value.is_nullish then inner else inner.add))
    | .Extent inner =>
      ((value.try_as_number).mapError PErr.call).map fun n => .Extent (inner.add n)
    | .FirstLast inner =>
      .ok (.FirstLast (if value.is_nullish then inner else inner.add index value))
    | .LexicographicExtent inner =>
      ((value.try_as_str).mapError PErr.call).map fun s => .LexicographicExtent (inner.add s)
    | .Frequencies inner =>
      ((value.try_as_str).mapError PErr.call).map fun s => .Frequencies (inner.add s)
    | .Numbers inner =>
      ((value.try_as_number).mapError PErr.call).map fun n => .Numbers (inner.add n)
    | .Sum inner =>
      ((value.try_as_number).mapError PErr.call).map fun n => .Sum (inner.add n)
    | .Welford inner =>
      ((value.try_as_f64).mapError PErr.call).map fun x => .Welford (inner.add x)
  | Option.none =>
    match a with
    | .Count inner => .ok (.Count inner.add)
    | _ => .error .unreachableReached

/-- The `for` loop of `process_value`: the `?` operator aborts the loop,
keeping the updates already made to earlier atoms and leaving the current
and later atoms untouched. -/
def processAtoms (index : ℕ) (value_opt : Option DynamicValue) :
    List Aggregator → List Aggregator × Option PErr
  | [] => ([], Option.none)
  | a :: rest =>
    match processAtom index value_opt a with
    | .ok a' =>
      let (rest', e) := processAtoms index value_opt rest
      (a' :: rest', e)
    | .error e => (a :: rest, some e)

/-- `CompositeAggregator::process_value` (agg.rs:602-654). -/
def CompositeAggregator.process_value (c : CompositeAggregator) (index : ℕ)
    (value_opt : Option DynamicValue) : CompositeAggregator × Option PErr :=
  let (ms, e) := processAtoms index value_opt c.methods
  (⟨ms⟩, e)

/-- `CompositeAggregator::finalize` (agg.rs:656-660). -/
def CompositeAggregator.finalize (c : CompositeAggregator) : CompositeAggregator :=
  ⟨c.methods.map Aggregator.finalizeAtom⟩

/-- `ConcretizationError` (per §7; the error type lives outside the
provided sources, its variants are named there and in agg.rs call sites). -/
inductive ConcretizationError where
  | ParseFail (source : String)
  | UnknownFunction (name : String)
  | UnknownIdentifier (name : String)
  | InvalidArity (name : String) (got : ℕ)
deriving DecidableEq

/-- Modelled from the spec (§4.1/§4.2, parser and interpreter are not under
the provided sources): a parsed argument expression is an identifier to be
bound against the headers or a literal constant. -/
inductive ParsedArg where
  | ident (name : String)
  | lit (v : DynamicValue)
deriving DecidableEq

/-- `ConcreteArgument` (per §4.2): an argument bound to a column index or
hoisted to a literal constant. -/
inductive ConcreteArgument where
  | Column (i : ℕ)
  | Constant (v : DynamicValue)
deriving DecidableEq

/-- Modelled from the spec (§4.2): the concretizer binds every identifier
to a column index by header-name match (first match) and rejects
unresolved names. -/
def concretize_expression (arg : ParsedArg) (headers : List String) :
    Except ConcretizationError ConcreteArgument :=
  match arg with
  | .lit v => .ok (.Constant v)
  | .ident n =>
    match headers.findIdx? (· = n) with
    | some i => .ok (.Column i)
    | Option.none => .error (.UnknownIdentifier n)

/-- `Aggregation` as produced by `parse_aggregations` (parser module):
function name, output name, argument list and the canonical expression
key. -/
structure Aggregation where
  agg_name : String
  func_name : String
  args : List ParsedArg
  expr_key : String
deriving DecidableEq

/-- `validate_aggregation_function_arity` (agg.rs:667-696). -/
def validate_aggregation_function_arity (aggregation : Aggregation) :
    Except ConcretizationError Unit :=
  let arity := aggregation.args.length
  if aggregation.func_name = "count" then
    if arity ≤ 1 then .ok () else .error (.InvalidArity aggregation.func_name arity)
  else
    if arity = 1 then .ok () else .error (.InvalidArity aggregation.func_name arity)

/-- `struct ConcreteAggregation` (agg.rs:748-755). -/
structure ConcreteAggregation where
  agg_name : String
  method : ConcreteAggregationMethod
  expr : Option ConcreteArgument
  expr_key : String
deriving DecidableEq

/-- `concretize_aggregations` (agg.rs:759-796); each `?` of the source is
an explicit early-return match.  The trailing extra arguments (`args`) are
concretized and discarded by the source as well. -/
def concretize_aggregations (aggregations : List Aggregation) (headers : List String) :
    Except ConcretizationError (List ConcreteAggregation) :=
  match aggregations with
  | [] => .ok []
  | aggregation :: rest =>
    match validate_aggregation_function_arity aggregation with
    | .error e => .error e
    | .ok _ =>
      match (match aggregation.args.head? with
             | some arg => (concretize_expression arg headers).map some
             | Option.none => .ok Option.none) with
      | .error e => .error e
      | .ok expr =>
        match ConcreteAggregationMethod.parseName aggregation.func_name with
        | some method =>
          match concretize_aggregations rest headers with
          | .error e => .error e
          | .ok tail =>
            .ok (⟨aggregation.agg_name, method, expr, aggregation.expr_key⟩ :: tail)
        | Option.none => .error (.UnknownFunction aggregation.func_name)

/-- `struct PlannerExecutionUnit` (agg.rs:808-813). -/
structure PlannerExecutionUnit where
  expr_key : String
  expr : Option ConcreteArgument
  aggregator_blueprint : CompositeAggregator

/-- `struct PlannerOutputUnit` (agg.rs:818-824). -/
structure PlannerOutputUnit where
  expr_index : ℕ
  aggregator_index : ℕ
  agg_name : String
  agg_method : ConcreteAggregationMethod

/-- `struct ConcreteAggregationPlanner` (agg.rs:826-830). -/
structure ConcreteAggregationPlanner where
  execution_plan : List PlannerExecutionUnit
  output_plan : List PlannerOutputUnit

/-- One iteration of the planner loop
(`impl From<ConcreteAggregations> for ConcreteAggregationPlanner`,
agg.rs:832-877). -/
def plannerStep (p : ConcreteAggregationPlanner) (agg : ConcreteAggregation) :
    ConcreteAggregationPlanner :=
  match p.execution_plan.findIdx? (fun unit => unit.expr_key = agg.expr_key) with
  | some expr_index =>
    match p.execution_plan[expr_index]? with
    | some unit =>
      let (aggregator_index, bp) := unit.aggregator_blueprint.add_method agg.method
      { execution_plan :=
          p.execution_plan.set expr_index
            { unit with aggregator_blueprint := bp }
        output_plan :=
          p.output_plan ++
            [⟨expr_index, aggregator_index, agg.agg_name, agg.method⟩] }
    | Option.none => p
  | Option.none =>
    let expr_index := p.execution_plan.length
    let (aggregator_index, bp) := CompositeAggregator.new.add_method agg.method
    { execution_plan :=
        p.execution_plan ++ [⟨agg.expr_key, agg.expr, bp⟩]
      output_plan :=
        p.output_plan ++
          [⟨expr_index, aggregator_index, agg.agg_name, agg.method⟩] }

/-- The planner construction (agg.rs:832-877): fold the aggregation list
over `plannerStep` starting from empty plans. -/
def plannerFrom (aggregations : List ConcreteAggregation) : ConcreteAggregationPlanner :=
  aggregations.foldl plannerStep ⟨[], []⟩

namespace ConcreteAggregationPlanner

/-- `instantiate_aggregators` (agg.rs:880-885). -/
def instantiate_aggregators (p : ConcreteAggregationPlanner) : List CompositeAggregator :=
  p.execution_plan.map (·.aggregator_blueprint)

/-- `headers` (agg.rs:887-889). -/
def headersOut (p : ConcreteAggregationPlanner) : List String :=
  p.output_plan.map (·.agg_name)

/-- `results` (agg.rs:891-899): for each output unit, index into the
aggregators and compute the final value.  An out-of-bounds index or the
`unreachable!` arm of `get_final_value` is a panic, modelled by `none`. -/
def results (p : ConcreteAggregationPlanner) (aggregators : List CompositeAggregator) :
    Option (List DynamicValue) :=
  p.output_plan.mapM fun unit =>
    (aggregators[unit.expr_index]?).bind fun agg =>
      (agg.methods[unit.aggregator_index]?).bind fun atom =>
        atom.getFinalValue unit.agg_method

end ConcreteAggregationPlanner

/-- Evaluation-side error of the driver (`EvaluationError`, per §7;
`CallError`s raised by `process_value` are wrapped with the execution
unit's name, agg.rs:915-920; the `unreachable!` panic is kept apart). -/
inductive RunError where
  | evalFail (e : CallError)
  | call (function_name : String) (reason : CallError)
  | panicked
deriving DecidableEq

/-- Modelled from the spec (§4.3, the interpreter is not under the
provided sources): a column leaf yields the record's field as a string
view, a constant yields itself; an out-of-range column index errors. -/
def eval_expr (expr : ConcreteArgument) (record : List String) :
    Except CallError DynamicValue :=
  match expr with
  | .Constant v => .ok v
  | .Column i =>
    match record[i]? with
    | some s => .ok (.Str s)
    | Option.none => .error .ColumnOutOfRange

/-- One execution unit of `run_with_record_on_aggregators`
(agg.rs:909-921): evaluate the unit's expression, then feed the value to
the unit's composite aggregator. -/
def unitStep (unit : PlannerExecutionUnit) (aggregator : CompositeAggregator)
    (index : ℕ) (record : List String) : CompositeAggregator × Option RunError :=
  match (match unit.expr with
         | Option.none => Except.ok Option.none
         | some e => (eval_expr e record).map some) with
  | .error e => (aggregator, some (.evalFail e))
  | .ok value_opt =>
    let (agg', pe) := aggregator.process_value index value_opt
    match pe with
    | some (.call ce) => (agg', some (.call ("<agg-expr: " ++ unit.expr_key ++ ">") ce))
    | some .unreachableReached => (agg', some .panicked)
    | Option.none => (agg', Option.none)

/-- `run_with_record_on_aggregators` (agg.rs:901-924): walk the zipped
execution plan and aggregators; the `?` operator aborts at the first
error, keeping the updates already made. -/
def run_with_record_on_aggregators :
    List PlannerExecutionUnit → List CompositeAggregator → ℕ → List String →
    List CompositeAggregator × Option RunError
  | unit :: units, agg :: aggs, index, record =>
    match unitStep unit agg index record with
    | (agg', some e) => (agg' :: aggs, some e)
    | (agg', Option.none) =>
      let (rest, e) := run_with_record_on_aggregators units aggs index record
      (agg' :: rest, e)
  | _, aggs, _, _ => (aggs, Option.none)

/-- Streaming state after submitting a list of `(index, record)` pairs to
`run_with_record` (agg.rs:954-967).  Rust aborts the whole process at the
`unreachable!` panic; the model keeps the partial state, which the
kind-shape invariants below tolerate. -/
def stepRecords (units : List PlannerExecutionUnit)
    (records : List (ℕ × List String)) (aggs : List CompositeAggregator) :
    List CompositeAggregator :=
  records.foldl
    (fun st r => (run_with_record_on_aggregators units st r.1 r.2).1) aggs

/-- `AggregationProgram::finalize` (agg.rs:973-985): finalize every
aggregator, then serialize every result of the output plan into one
record. -/
def finalizeProgram (p : ConcreteAggregationPlanner)
    (aggregators : List CompositeAggregator) : Option (List String) :=
  let finalized := aggregators.map CompositeAggregator.finalize
  (p.results finalized).map (·.map DynamicValue.serialize_as_bytes)

/-- The field an aggregation method produces over the empty record stream
(for claim C10): `sum` serializes to `"0"`, `count`/`cardinality` to
`"0"`, `all`/`any` to their initial booleans, everything else is the empty
serialization of None. -/
def emptyStreamField : ConcreteAggregationMethod → String
  | .All => "true"
  | .Any => "false"
  | .Cardinality => "0"
  | .Count => "0"
  | .Sum => "0"
  | .Median _ => ""
  | .Min => ""
  | .Max => ""
  | .Mean => ""
  | .First => ""
  | .Last => ""
  | .LexFirst => ""
  | .LexLast => ""
  | .Mode => ""
  | .VarPop => ""
  | .VarSample => ""
  | .StddevPop => ""
  | .StddevSample => ""

/-- A composite built by a sequence of `add_method` calls starting from
`CompositeAggregator::new()` (for claim C2). -/
def buildComposite (ms : List ConcreteAggregationMethod) : CompositeAggregator :=
  ms.foldl (fun c m => (c.add_method m).2) CompositeAggregator.new

/-- A single-`Count`-atom composite folded over a value stream (for claim
C4): the state reached by `count(x)`-only or `count()`-only programs. -/
def runCountStream (vs : List (Option DynamicValue)) : CompositeAggregator :=
  vs.foldl (fun c vo => (c.process_value 0 vo).1) ⟨[.Count Count.new]⟩

/-- `Frequencies` accumulated over a stream of strings (for claim C6). -/
def freqOfList (xs : List String) : Frequencies :=
  xs.foldl Frequencies.add Frequencies.new

/-- `Welford` folded over a list of exact (non-NaN) float inputs (for
claim C7). -/
def welfordQ (xs : List ℚ) : Welford :=
  xs.foldl (fun w q => w.add (.fin q)) Welford.new

/-- Well-formedness of one output-plan unit against an execution plan: its
indices are in bounds and the atom it points at has the kind its method
requires (the soundness condition behind `get_final_value`). -/
def outUnitWF (plan : List PlannerExecutionUnit) (u : PlannerOutputUnit) : Prop :=
  ∃ eu, plan[u.expr_index]? = some eu
    ∧ ∃ a, eu.aggregator_blueprint.methods[u.aggregator_index]? = some a
      ∧ a.atomKind = ConcreteAggregationMethod.methodAtomKind u.agg_method

/-- Kind-shape agreement between live aggregators and the execution plan’s
blueprints, position by position. -/
def aggsShapeOK (plan : List PlannerExecutionUnit) (aggs : List CompositeAggregator) : Prop :=
  aggs.length = plan.length
  ∧ ∀ i : ℕ, ((aggs[i]?).map (fun c => c.methods.map Aggregator.atomKind))
      = ((plan[i]?).map (fun eu => eu.aggregator_blueprint.methods.map Aggregator.atomKind))

/-- Every execution unit with an absent expression holds only Count atoms
(the condition keeping the `unreachable!` arm of `process_value` dead). -/
def absentExprOnlyCount (plan : List PlannerExecutionUnit) : Prop :=
  ∀ eu ∈ plan, eu.expr = Option.none →
    ∀ a ∈ eu.aggregator_blueprint.methods, a.atomKind = AtomKind.CountK


/-- C5: for a `Numbers` atom holding `n` numbers, every median variant
returns `None` when `n = 0`; otherwise `median_low` returns the element at
index `n/2 − 1` for even `n` and at `n/2` for odd `n`; `median_high`
returns the element at `n/2` for any parity; the interpolation median
returns the element at `n/2` for odd `n` and `(a+b)/2` — promoted to Float
by the division — for even `n`, with `a`, `b` the two middle elements. -/
theorem median_variants (l : List DynamicNumber) :
    (Numbers.median ⟨l⟩ .Low
        = l[if l.length % 2 = 0 then l.length / 2 - 1 else l.length / 2]?)
    ∧ (Numbers.median ⟨l⟩ .High = l[l.length / 2]?)
    ∧ (Numbers.median ⟨l⟩ .Interpolation
        = if l.length % 2 = 1 then l[l.length / 2]?
          else (l[l.length / 2 - 1]?).bind fun a =>
            (l[l.length / 2]?).map fun b =>
              DynamicNumber.divNum (DynamicNumber.addNum a b) (.Float (.fin 2)))
    ∧ ∀ a b : DynamicNumber, ∃ f, DynamicNumber.divNum a b = .Float f := by
  by_cases h0 : l.length = 0
  · have hl : l = [] := List.eq_nil_of_length_eq_zero h0
    subst hl
    exact ⟨rfl, rfl, rfl, fun a b => ⟨_, rfl⟩⟩
  · have hpos : 0 < l.length := Nat.pos_of_ne_zero h0
    have hhi : l.length / 2 < l.length := Nat.div_lt_self hpos one_lt_two
    have hlo : l.length / 2 - 1 < l.length := lt_of_le_of_lt (Nat.sub_le _ _) hhi
    refine ⟨?_, ?_, ?_, fun a b => ⟨_, rfl⟩⟩
    · by_cases he : l.length % 2 = 0
      · simp [Numbers.median, h0, he, List.getElem?_eq_getElem hlo]
      · simp [Numbers.median, h0, he, List.getElem?_eq_getElem hhi]
    · simp [Numbers.median, h0, List.getElem?_eq_getElem hhi]
    · by_cases ho : l.length % 2 = 1
      · simp [Numbers.median, h0, ho, List.getElem?_eq_getElem hhi]
      · simp [Numbers.median, h0, ho, List.getElem?_eq_getElem hhi,
          List.getElem?_eq_getElem hlo]

/-- C8: `Numbers::finalize` sorts the collected numbers into a total order
that agrees with numeric order on non-NaN values and places NaN last, and
it succeeds on every input sequence (the comparison the `sort_by`
comparator unwraps is never `None`, NaN included). -/
theorem numbers_finalize_total_order (l : List DynamicNumber) :
    ((Numbers.finalize ⟨l⟩).numbers.Perm l)
    ∧ ((Numbers.finalize ⟨l⟩).numbers.Sorted DynamicNumber.dnle)
    ∧ (∀ a b : DynamicNumber, (DynamicNumber.cmpOpt a b).isSome)
    ∧ (∀ a b : DynamicNumber, a.isNan = false → b.isNan = false →
        (DynamicNumber.dnle a b ↔ a.toRatD ≤ b.toRatD))
    ∧ (∀ a b : DynamicNumber, b.isNan = true → DynamicNumber.dnle a b) := by
  refine ⟨List.perm_insertionSort _ l, List.sorted_insertionSort _ l, ?_, ?_, ?_⟩
  · intro a b
    simp [DynamicNumber.cmpOpt]
  · intro a b ha hb
    match a, b with
    | .Integer i, .Integer j =>
      simp [DynamicNumber.dnle, DynamicNumber.dnKey, DynamicNumber.toRatD]
    | .Integer i, .Float (.fin q) =>
      simp [DynamicNumber.dnle, DynamicNumber.dnKey, DynamicNumber.toRatD]
    | .Float (.fin p), .Integer j =>
      simp [DynamicNumber.dnle, DynamicNumber.dnKey, DynamicNumber.toRatD]
    | .Float (.fin p), .Float (.fin q) =>
      simp [DynamicNumber.dnle, DynamicNumber.dnKey, DynamicNumber.toRatD]
    | .Float .nan, _ => simp [DynamicNumber.isNan] at ha
    | .Integer _, .Float .nan => simp [DynamicNumber.isNan] at hb
    | .Float (.fin _), .Float .nan => simp [DynamicNumber.isNan] at hb
  · intro a b hb
    match b with
    | .Float .nan =>
      show DynamicNumber.dnKey a ≤ DynamicNumber.dnKey (.Float .nan)
      simp [DynamicNumber.dnKey]
    | .Integer _ => simp [DynamicNumber.isNan] at hb
    | .Float (.fin _) => simp [DynamicNumber.isNan] at hb

/-- Witness for C8 at a concrete mixed input. -/
theorem numbers_finalize_total_order_witness :
    (DynamicNumber.dnle (.Integer 1) (.Float (.fin (3/2)))
      ↔ (DynamicNumber.Integer 1).toRatD ≤ (DynamicNumber.Float (.fin (3/2))).toRatD)
    ∧ DynamicNumber.dnle (.Integer 5) (.Float .nan) := by
  refine ⟨(numbers_finalize_total_order []).2.2.2.1 _ _ rfl rfl, ?_⟩
  exact (numbers_finalize_total_order []).2.2.2.2 _ _ rfl

theorem atomKind_freshAtom (k : AtomKind) : (Aggregator.freshAtom k).atomKind = k := by
  cases k <;> rfl

theorem firstKindIdx_none_iff (l : List Aggregator) (k : AtomKind) :
    firstKindIdx l k = Option.none ↔ ∀ a ∈ l, a.atomKind ≠ k := by
  induction l with
  | nil => simp [firstKindIdx]
  | cons a rest ih =>
    by_cases h : a.atomKind = k
    · simp [firstKindIdx, h]
    · simp [firstKindIdx, h, Option.map_eq_none', ih]

theorem firstKindIdx_some (l : List Aggregator) (k : AtomKind) (i : ℕ)
    (h : firstKindIdx l k = some i) :
    ∃ a, l[i]? = some a ∧ a.atomKind = k := by
  induction l generalizing i with
  | nil => simp [firstKindIdx] at h
  | cons a rest ih =>
    by_cases hk : a.atomKind = k
    · simp [firstKindIdx, hk] at h
      subst h
      exact ⟨a, by simp, hk⟩
    · simp only [firstKindIdx, if_neg hk, Option.map_eq_some'] at h
      obtain ⟨j, hj, hji⟩ := h
      subst hji
      obtain ⟨b, hb, hbk⟩ := ih j hj
      exact ⟨b, by simpa using hb, hbk⟩

theorem upsert_nodup (c : CompositeAggregator) (k : AtomKind)
    (h : (c.methods.map Aggregator.atomKind).Nodup) :
    (((c.upsertAggregator k).2).methods.map Aggregator.atomKind).Nodup := by
  unfold CompositeAggregator.upsertAggregator
  cases hf : firstKindIdx c.methods k with
  | some i => exact h
  | none =>
    have hno : ∀ a ∈ c.methods, a.atomKind ≠ k := (firstKindIdx_none_iff _ _).1 hf
    have hk : k ∉ c.methods.map Aggregator.atomKind := by
      intro hmem
      obtain ⟨a, ha, hak⟩ := List.mem_map.1 hmem
      exact hno a ha hak
    simp only [List.map_append, List.map_cons, List.map_nil, atomKind_freshAtom]
    exact List.Nodup.append h (List.nodup_singleton k) (by simpa using hk)

theorem buildComposite_kinds_nodup (ms : List ConcreteAggregationMethod) :
    ((buildComposite ms).methods.map Aggregator.atomKind).Nodup := by
  suffices h : ∀ c : CompositeAggregator, (c.methods.map Aggregator.atomKind).Nodup →
      ((ms.foldl (fun c m => (c.add_method m).2) c).methods.map Aggregator.atomKind).Nodup by
    exact h CompositeAggregator.new (by simp [CompositeAggregator.new])
  induction ms with
  | nil => exact fun c hc => hc
  | cons m rest ih =>
    intro c hc
    exact ih _ (upsert_nodup c _ hc)

/-- C2: over every sequence of `add_method` calls starting from
`CompositeAggregator::new()`, each atom kind appears at most once in the
atom vector; a further `add_method` returns the index of the
already-present atom of the required kind and leaves the vector unchanged,
and pushes a fresh atom (returning its index) only when no atom of that
kind is present. -/
theorem add_method_dedup (ms : List ConcreteAggregationMethod)
    (m : ConcreteAggregationMethod) :
    ((buildComposite ms).methods.map Aggregator.atomKind).Nodup
    ∧ (if ConcreteAggregationMethod.methodAtomKind m
          ∈ (buildComposite ms).methods.map Aggregator.atomKind
       then ((buildComposite ms).add_method m).2 = buildComposite ms
          ∧ ∃ a, (buildComposite ms).methods[((buildComposite ms).add_method m).1]? = some a
              ∧ a.atomKind = ConcreteAggregationMethod.methodAtomKind m
       else ((buildComposite ms).add_method m).1 = (buildComposite ms).methods.length
          ∧ ((buildComposite ms).add_method m).2
              = ⟨(buildComposite ms).methods
                  ++ [Aggregator.freshAtom (ConcreteAggregationMethod.methodAtomKind m)]⟩) := by
  refine ⟨buildComposite_kinds_nodup ms, ?_⟩
  by_cases hmem : ConcreteAggregationMethod.methodAtomKind m
      ∈ (buildComposite ms).methods.map Aggregator.atomKind
  · rw [if_pos hmem]
    cases hf : firstKindIdx (buildComposite ms).methods
        (ConcreteAggregationMethod.methodAtomKind m) with
    | none =>
      obtain ⟨a, ha, hak⟩ := List.mem_map.1 hmem
      exact absurd hak ((firstKindIdx_none_iff _ _).1 hf a ha)
    | some i =>
      obtain ⟨a, ha, hak⟩ := firstKindIdx_some _ _ _ hf
      refine ⟨?_, a, ?_, hak⟩
      · simp [CompositeAggregator.add_method, CompositeAggregator.upsertAggregator, hf]
      · simpa [CompositeAggregator.add_method, CompositeAggregator.upsertAggregator, hf] using ha
  · rw [if_neg hmem]
    have hf : firstKindIdx (buildComposite ms).methods
        (ConcreteAggregationMethod.methodAtomKind m) = Option.none := by
      refine (firstKindIdx_none_iff _ _).2 fun a ha hak => hmem ?_
      exact List.mem_map.2 ⟨a, ha, hak⟩
    exact ⟨by simp [CompositeAggregator.add_method, CompositeAggregator.upsertAggregator, hf],
      by simp [CompositeAggregator.add_method, CompositeAggregator.upsertAggregator, hf]⟩

theorem pairGtB_iff (a b : ℕ × String) :
    Frequencies.pairGtB a b = true ↔ toLex b < toLex a := by
  rw [Prod.Lex.lt_iff]
  simp only [Frequencies.pairGtB, Bool.or_eq_true, Bool.and_eq_true, decide_eq_true_eq,
    beq_iff_eq]
  constructor
  · rintro (h | ⟨h1, h2⟩)
    · exact Or.inl h
    · exact Or.inr ⟨h1.symm, h2⟩
  · rintro (h | ⟨h1, h2⟩)
    · exact Or.inl h
    · exact Or.inr ⟨h1.symm, h2⟩

theorem mode_fold_char (c : List (String × ℕ)) :
    ∀ acc : Option (ℕ × String),
      (c.foldl
        (fun mx p =>
          match mx with
          | Option.none => some (p.2, p.1)
          | some entry =>
            if Frequencies.pairGtB (p.2, p.1) entry then some (p.2, p.1) else some entry)
        acc = Option.none ↔ (acc = Option.none ∧ c = []))
      ∧ (∀ e, c.foldl
          (fun mx p =>
            match mx with
            | Option.none => some (p.2, p.1)
            | some entry =>
              if Frequencies.pairGtB (p.2, p.1) entry then some (p.2, p.1) else some entry)
          acc = some e →
        (acc = some e ∨ (e.2, e.1) ∈ c)
        ∧ (∀ a, acc = some a → toLex a ≤ toLex e)
        ∧ (∀ p ∈ c, toLex (p.2, p.1) ≤ toLex e)) := by
  induction c with
  | nil =>
    intro acc
    refine ⟨by simp, fun e he => ?_⟩
    simp only [List.foldl_nil] at he
    exact ⟨Or.inl he, fun a ha => by rw [ha] at he; cases he; exact le_refl _,
      fun p hp => absurd hp (List.not_mem_nil p)⟩
  | cons p rest ih =>
    intro acc
    have hstep : ∀ m : ℕ × String,
        (match acc with
          | Option.none => some (p.2, p.1)
          | some entry =>
            if Frequencies.pairGtB (p.2, p.1) entry then some (p.2, p.1) else some entry)
          = some m →
        (toLex (p.2, p.1) ≤ toLex m) ∧ (∀ a, acc = some a → toLex a ≤ toLex m)
          ∧ (acc = some m ∨ m = (p.2, p.1)) := by
      intro m hm
      cases acc with
      | none =>
        simp only at hm
        cases hm
        exact ⟨le_refl _, fun a ha => (by simp at ha), Or.inr rfl⟩
      | some a0 =>
        simp only at hm
        by_cases hgt : Frequencies.pairGtB (p.2, p.1) a0 = true
        · rw [if_pos hgt] at hm
          cases hm
          exact ⟨le_refl _,
            fun a ha => (by cases ha; exact le_of_lt ((pairGtB_iff _ _).1 hgt)),
            Or.inr rfl⟩
        · rw [if_neg hgt] at hm
          cases hm
          refine ⟨?_, fun a ha => (by cases ha; exact le_refl _), Or.inl rfl⟩
          have := (not_congr (pairGtB_iff (p.2, p.1) m)).1 hgt
          exact not_lt.1 this
    constructor
    · simp only [List.foldl_cons]
      rw [(ih _).1]
      constructor
      · rintro ⟨h1, h2⟩
        cases acc with
        | none => simp at h1
        | some a0 =>
          by_cases hgt : Frequencies.pairGtB (p.2, p.1) a0 = true <;>
            simp [hgt] at h1
      · rintro ⟨h1, h2⟩
        cases h2
    · intro e he
      simp only [List.foldl_cons] at he
      obtain ⟨h1, h2, h3⟩ := (ih _).2 e he
      cases hm : (match acc with
          | Option.none => some (p.2, p.1)
          | some entry =>
            if Frequencies.pairGtB (p.2, p.1) entry then some (p.2, p.1) else some entry) with
      | none =>
        cases acc with
        | none => simp at hm
        | some a0 =>
          by_cases hgt : Frequencies.pairGtB (p.2, p.1) a0 = true <;>
            simp [hgt] at hm
      | some m =>
        obtain ⟨hpm, hacc, hsrc⟩ := hstep m hm
        have hme : toLex m ≤ toLex e := by
          rcases h1 with h1 | h1
          · rw [hm] at h1
            cases h1
            exact le_refl _
          · exact h2 m hm
        refine ⟨?_, fun a ha => le_trans (hacc a ha) hme, ?_⟩
        · rcases h1 with h1 | h1
          · rw [hm] at h1
            cases h1
            rcases hsrc with hsrc | hsrc
            · exact Or.inl hsrc
            · subst hsrc
              exact Or.inr (List.mem_cons_self p rest)
          · exact Or.inr (List.mem_cons_of_mem p h1)
        · intro q hq
          rcases List.mem_cons.1 hq with hq | hq
          · subst hq
            exact le_trans hpm hme
          · exact h3 q hq

theorem mode_none_iff (f : Frequencies) : f.mode = Option.none ↔ f.counter = [] := by
  unfold Frequencies.mode
  rw [Option.map_eq_none']
  rw [(mode_fold_char f.counter Option.none).1]
  simp

theorem mode_max (f : Frequencies) (k : String) (h : f.mode = some k) :
    ∃ n, (k, n) ∈ f.counter ∧ ∀ p ∈ f.counter, toLex (p.2, p.1) ≤ toLex (n, k) := by
  unfold Frequencies.mode at h
  rw [Option.map_eq_some'] at h
  obtain ⟨e, he, hek⟩ := h
  obtain ⟨h1, h2, h3⟩ := (mode_fold_char f.counter Option.none).2 e he
  rcases h1 with h1 | h1
  · simp at h1
  · subst hek
    exact ⟨e.1, h1, by simpa using h3⟩

theorem mode_perm_eq (f g : Frequencies) (h : f.counter.Perm g.counter) :
    f.mode = g.mode := by
  cases hf : f.mode with
  | none =>
    have hfc : f.counter = [] := (mode_none_iff f).1 hf
    have hgc : g.counter = [] := by
      rw [hfc] at h
      exact h.symm.eq_nil
    rw [(mode_none_iff g).2 hgc]
  | some k =>
    cases hg : g.mode with
    | none =>
      have hgc : g.counter = [] := (mode_none_iff g).1 hg
      rw [hgc] at h
      rw [(mode_none_iff f).2 h.eq_nil] at hf
      cases hf
    | some k' =>
      obtain ⟨n, hn, hmax⟩ := mode_max f k hf
      obtain ⟨n', hn', hmax'⟩ := mode_max g k' hg
      have h1 : toLex (n', k') ≤ toLex (n, k) := hmax (k', n') (h.mem_iff.2 hn')
      have h2 : toLex (n, k) ≤ toLex (n', k') := hmax' (k, n) (h.mem_iff.1 hn)
      have hp : ((n, k) : ℕ × String) = (n', k') := toLex.injective (le_antisymm h2 h1)
      exact congrArg (fun x : ℕ × String => some x.2) hp

theorem freq_add_keys (f : Frequencies) (v : String) :
    (f.add v).counter.map Prod.fst
      = if v ∈ f.counter.map Prod.fst then f.counter.map Prod.fst
        else f.counter.map Prod.fst ++ [v] := by
  unfold Frequencies.add
  by_cases h : v ∈ f.counter.map Prod.fst
  · rw [if_pos h]
    have hany : f.counter.any (fun p => p.1 == v) = true := by
      obtain ⟨p, hp, hpv⟩ := List.mem_map.1 h
      exact List.any_eq_true.2 ⟨p, hp, by simp [hpv]⟩
    simp only [hany, if_true]
    rw [List.map_map]
    have hcomp : (Prod.fst ∘ fun p : String × ℕ => if p.1 == v then (p.1, p.2 + 1) else p)
        = Prod.fst := by
      funext p
      by_cases hpv : p.1 == v <;> simp [Function.comp, hpv]
    rw [hcomp]
  · rw [if_neg h]
    have hany : f.counter.any (fun p => p.1 == v) = false := by
      rw [List.any_eq_false]
      intro p hp
      simp only [beq_iff_eq]
      intro hpv
      exact h (List.mem_map.2 ⟨p, hp, hpv⟩)
    simp [hany]

theorem freqFold_keys : ∀ (xs : List String) (f : Frequencies),
    (f.counter.map Prod.fst).Nodup →
    ((xs.foldl Frequencies.add f).counter.map Prod.fst).Nodup
    ∧ (∀ s, s ∈ (xs.foldl Frequencies.add f).counter.map Prod.fst
        ↔ s ∈ f.counter.map Prod.fst ∨ s ∈ xs)
  | [], f, h => ⟨h, fun s => by simp⟩
  | v :: rest, f, h => by
    rw [List.foldl_cons]
    have hk := freq_add_keys f v
    by_cases hv : v ∈ f.counter.map Prod.fst
    · rw [if_pos hv] at hk
      obtain ⟨h1, h2⟩ := freqFold_keys rest (f.add v) (by rw [hk]; exact h)
      refine ⟨h1, fun s => ?_⟩
      rw [h2 s, hk]
      simp only [List.mem_cons]
      constructor
      · rintro (hs | hs)
        · exact Or.inl hs
        · exact Or.inr (Or.inr hs)
      · rintro (hs | hs | hs)
        · exact Or.inl hs
        · exact Or.inl (by rw [hs]; exact hv)
        · exact Or.inr hs
    · rw [if_neg hv] at hk
      have hnd : ((f.add v).counter.map Prod.fst).Nodup := by
        rw [hk]
        exact List.Nodup.append h (List.nodup_singleton v) (by simpa using hv)
      obtain ⟨h1, h2⟩ := freqFold_keys rest (f.add v) hnd
      refine ⟨h1, fun s => ?_⟩
      rw [h2 s, hk]
      simp only [List.mem_append, List.mem_singleton, List.mem_cons]
      tauto

theorem freq_cardinality (xs : List String) :
    (freqOfList xs).cardinality = xs.toFinset.card := by
  obtain ⟨hnd, hmem⟩ := freqFold_keys xs Frequencies.new (by simp [Frequencies.new])
  have hlen : (freqOfList xs).cardinality
      = ((freqOfList xs).counter.map Prod.fst).length := by
    simp [Frequencies.cardinality]
  rw [hlen]
  unfold freqOfList
  rw [← List.toFinset_card_of_nodup hnd]
  congr 1
  ext s
  simp only [List.mem_toFinset]
  rw [hmem s]
  simp [Frequencies.new]

/-- C6: `mode()` returns `None` exactly on the empty counter, otherwise a
key of maximal count, tie-broken to the lexicographically greatest tied
key; its result is invariant under permutation of the (hash-map) iteration
order.  `cardinality()` returns the number of distinct keys added. -/
theorem mode_and_cardinality (f : Frequencies) :
    (f.mode = Option.none ↔ f.counter = [])
    ∧ (∀ k, f.mode = some k →
        ∃ n, (k, n) ∈ f.counter
          ∧ ∀ p ∈ f.counter, p.2 < n ∨ (p.2 = n ∧ p.1 ≤ k))
    ∧ (∀ g : Frequencies, f.counter.Perm g.counter → f.mode = g.mode)
    ∧ (∀ xs : List String, (freqOfList xs).cardinality = xs.toFinset.card) := by
  refine ⟨mode_none_iff f, fun k hk => ?_, fun g hg => mode_perm_eq f g hg,
    fun xs => freq_cardinality xs⟩
  obtain ⟨n, hn, hmax⟩ := mode_max f k hk
  refine ⟨n, hn, fun p hp => ?_⟩
  have := hmax p hp
  rw [Prod.Lex.le_iff] at this
  rcases this with h | ⟨h1, h2⟩
  · exact Or.inl h
  · exact Or.inr ⟨h1, h2⟩

/-- Witness for C6 on a concrete two-key counter. -/
theorem mode_and_cardinality_witness :
    (∃ n, (("b" : String), n) ∈ [(("a" : String), 1), ("b", 2)]
      ∧ ∀ p ∈ [(("a" : String), 1), ("b", 2)], p.2 < n ∨ (p.2 = n ∧ p.1 ≤ "b"))
    ∧ Frequencies.mode ⟨[("a", 1), ("b", 2)]⟩ = Frequencies.mode ⟨[("b", 2), ("a", 1)]⟩ := by
  constructor
  · exact (mode_and_cardinality ⟨[("a", 1), ("b", 2)]⟩).2.1 "b" (by decide)
  · exact (mode_and_cardinality ⟨[("a", 1), ("b", 2)]⟩).2.2.1 ⟨[("b", 2), ("a", 1)]⟩
      (by decide)

theorem processAtom_kind (index : ℕ) (vopt : Option DynamicValue) (a a' : Aggregator)
    (h : processAtom index vopt a = .ok a') : a'.atomKind = a.atomKind := by
  cases vopt with
  | none =>
    cases a with
    | Count inner =>
      simp only [processAtom] at h
      injection h with h
      subst h
      rfl
    | AllAny inner => simp [processAtom] at h
    | Extent inner => simp [processAtom] at h
    | FirstLast inner => simp [processAtom] at h
    | LexicographicExtent inner => simp [processAtom] at h
    | Frequencies inner => simp [processAtom] at h
    | Numbers inner => simp [processAtom] at h
    | Sum inner => simp [processAtom] at h
    | Welford inner => simp [processAtom] at h
  | some v =>
    cases a with
    | AllAny inner =>
      simp only [processAtom] at h
      injection h with h
      subst h
      rfl
    | Count inner =>
      simp only [processAtom] at h
      injection h with h
      subst h
      by_cases hn : v.is_nullish <;> simp [hn] <;> rfl
    | FirstLast inner =>
      simp only [processAtom] at h
      injection h with h
      subst h
      by_cases hn : v.is_nullish <;> simp [hn] <;> rfl
    | Extent inner =>
      cases hr : v.try_as_number with
      | ok n => simp only [processAtom, hr, Except.mapError, Except.map] at h; injection h with h; subst h; rfl
      | error e => simp [processAtom, hr, Except.mapError, Except.map] at h
    | LexicographicExtent inner =>
      cases hr : v.try_as_str with
      | ok s => simp only [processAtom, hr, Except.mapError, Except.map] at h; injection h with h; subst h; rfl
      | error e => simp [processAtom, hr, Except.mapError, Except.map] at h
    | Frequencies inner =>
      cases hr : v.try_as_str with
      | ok s => simp only [processAtom, hr, Except.mapError, Except.map] at h; injection h with h; subst h; rfl
      | error e => simp [processAtom, hr, Except.mapError, Except.map] at h
    | Numbers inner =>
      cases hr : v.try_as_number with
      | ok n => simp only [processAtom, hr, Except.mapError, Except.map] at h; injection h with h; subst h; rfl
      | error e => simp [processAtom, hr, Except.mapError, Except.map] at h
    | Sum inner =>
      cases hr : v.try_as_number with
      | ok n => simp only [processAtom, hr, Except.mapError, Except.map] at h; injection h with h; subst h; rfl
      | error e => simp [processAtom, hr, Except.mapError, Except.map] at h
    | Welford inner =>
      cases hr : v.try_as_f64 with
      | ok x => simp only [processAtom, hr, Except.mapError, Except.map] at h; injection h with h; subst h; rfl
      | error e => simp [processAtom, hr, Except.mapError, Except.map] at h

theorem processAtoms_cons_ok (index : ℕ) (vopt : Option DynamicValue) (b b' : Aggregator)
    (rest : List Aggregator) (hb : processAtom index vopt b = .ok b') :
    processAtoms index vopt (b :: rest)
      = (b' :: (processAtoms index vopt rest).1, (processAtoms index vopt rest).2) := by
  simp [processAtoms, hb]

theorem processAtoms_cons_err (index : ℕ) (vopt : Option DynamicValue) (b : Aggregator)
    (rest : List Aggregator) (e : PErr) (hb : processAtom index vopt b = .error e) :
    processAtoms index vopt (b :: rest) = (b :: rest, some e) := by
  simp [processAtoms, hb]

theorem processAtoms_spec (index : ℕ) (vopt : Option DynamicValue) (l : List Aggregator) :
    ((processAtoms index vopt l).1.length = l.length)
    ∧ (∀ i : ℕ, ((processAtoms index vopt l).1[i]?).map Aggregator.atomKind
        = (l[i]?).map Aggregator.atomKind)
    ∧ ((processAtoms index vopt l).2 = Option.none →
        ∀ (i : ℕ) (a : Aggregator), l[i]? = some a →
          ∃ a', processAtom index vopt a = .ok a'
            ∧ (processAtoms index vopt l).1[i]? = some a')
    ∧ (∀ e, (processAtoms index vopt l).2 = some e →
        ∃ (k : ℕ) (a : Aggregator), l[k]? = some a ∧ processAtom index vopt a = .error e
          ∧ (∀ j : ℕ, k ≤ j → (processAtoms index vopt l).1[j]? = l[j]?)
          ∧ (∀ (j : ℕ) (b : Aggregator), j < k → l[j]? = some b →
              ∃ b', processAtom index vopt b = .ok b'
                ∧ (processAtoms index vopt l).1[j]? = some b')) := by
  induction l with
  | nil =>
    refine ⟨rfl, fun i => rfl, fun _ i a ha => (by simp at ha),
      fun e he => (by simp [processAtoms] at he)⟩
  | cons b rest ih =>
    obtain ⟨ihlen, ihkind, ihok, iherr⟩ := ih
    cases hb : processAtom index vopt b with
    | ok b' =>
      rw [processAtoms_cons_ok index vopt b b' rest hb]
      refine ⟨by simpa using ihlen, ?_, ?_, ?_⟩
      · intro i
        cases i with
        | zero => simp [processAtom_kind index vopt b b' hb]
        | succ j => simpa using ihkind j
      · intro hnone i a ha
        cases i with
        | zero =>
          simp only [List.getElem?_cons_zero, Option.some.injEq] at ha
          subst ha
          exact ⟨b', hb, by simp⟩
        | succ j =>
          simp only [List.getElem?_cons_succ] at ha ⊢
          exact ihok hnone j a ha
      · intro e he
        obtain ⟨k, a, hka, hkerr, hsuf, hpre⟩ := iherr e he
        refine ⟨k + 1, a, by simpa using hka, hkerr, ?_, ?_⟩
        · intro j hj
          cases j with
          | zero => simp at hj
          | succ j' => simpa using hsuf j' (Nat.le_of_succ_le_succ hj)
        · intro j c hj hc
          cases j with
          | zero =>
            simp only [List.getElem?_cons_zero, Option.some.injEq] at hc
            subst hc
            exact ⟨b', hb, by simp⟩
          | succ j' =>
            simp only [List.getElem?_cons_succ] at hc ⊢
            exact hpre j' c (Nat.lt_of_succ_lt_succ hj) hc
    | error e0 =>
      rw [processAtoms_cons_err index vopt b rest e0 hb]
      refine ⟨rfl, fun i => rfl, fun hnone => (by simp at hnone), ?_⟩
      intro e he
      simp only [Option.some.injEq] at he
      subst he
      refine ⟨0, b, by simp, hb, fun j _ => rfl, fun j c hj => (by simp at hj)⟩

theorem process_value_eq (c : CompositeAggregator) (index : ℕ) (vopt : Option DynamicValue) :
    c.process_value index vopt
      = (⟨(processAtoms index vopt c.methods).1⟩, (processAtoms index vopt c.methods).2) := rfl

theorem runCount_some (vs : List DynamicValue) : ∀ k : ℕ,
    (vs.map some).foldl (fun (c : CompositeAggregator) vo => (c.process_value 0 vo).1)
        ⟨[.Count ⟨k⟩]⟩
      = (⟨[.Count ⟨k + (vs.filter (fun w => !w.is_nullish)).length⟩]⟩ : CompositeAggregator) := by
  induction vs with
  | nil => intro k; simp
  | cons v rest ih =>
    intro k
    have hstep : ((⟨[.Count ⟨k⟩]⟩ : CompositeAggregator).process_value 0 (some v)).1
        = ⟨[.Count ⟨if v.is_nullish then k else k + 1⟩]⟩ := by
      rw [process_value_eq]
      by_cases hn : v.is_nullish <;> simp [processAtoms, processAtom, hn, Count.add]
    simp only [List.map_cons, List.foldl_cons, hstep]
    by_cases hn : v.is_nullish
    · rw [if_pos hn, ih k]
      simp [List.filter_cons, hn]
    · rw [if_neg hn, ih (k + 1)]
      have harith : k + 1 + (rest.filter (fun w => !w.is_nullish)).length
          = k + ((rest.filter (fun w => !w.is_nullish)).length + 1) := by omega
      simp [List.filter_cons, hn, harith]

theorem runCount_none (n : ℕ) : ∀ k : ℕ,
    (List.replicate n (Option.none : Option DynamicValue)).foldl
        (fun (c : CompositeAggregator) vo => (c.process_value 0 vo).1) ⟨[.Count ⟨k⟩]⟩
      = (⟨[.Count ⟨k + n⟩]⟩ : CompositeAggregator) := by
  induction n with
  | zero => intro k; simp
  | succ m ih =>
    intro k
    have hstep : ((⟨[.Count ⟨k⟩]⟩ : CompositeAggregator).process_value 0 Option.none).1
        = ⟨[.Count ⟨k + 1⟩]⟩ := by
      rw [process_value_eq]
      simp [processAtoms, processAtom, Count.add]
    rw [List.replicate_succ, List.foldl_cons, hstep, ih (k + 1)]
    have : k + 1 + m = k + (m + 1) := by omega
    rw [this]

/-- C4: on an error-free `process_value` call with a present value, every
`Count` atom increments exactly when the value is not nullish; with an
absent value (the argument-less `count()` path) it increments
unconditionally.  Hence over a stream, `count(x)` counts the non-nullish
values and `count()` counts the rows. -/
theorem count_semantics (c : CompositeAggregator) (index : ℕ) (v : DynamicValue) (i k : ℕ) :
    ((c.process_value index (some v)).2 = Option.none →
      c.methods[i]? = some (.Count ⟨k⟩) →
      (c.process_value index (some v)).1.methods[i]?
        = some (.Count ⟨if v.is_nullish then k else k + 1⟩))
    ∧ ((c.process_value index Option.none).2 = Option.none →
      c.methods[i]? = some (.Count ⟨k⟩) →
      (c.process_value index Option.none).1.methods[i]? = some (.Count ⟨k + 1⟩))
    ∧ (∀ vs : List DynamicValue,
        runCountStream (vs.map some)
          = ⟨[.Count ⟨(vs.filter (fun w => !w.is_nullish)).length⟩]⟩)
    ∧ (∀ n : ℕ, runCountStream (List.replicate n Option.none) = ⟨[.Count ⟨n⟩]⟩) := by
  refine ⟨?_, ?_, fun vs => by simpa using runCount_some vs 0,
    fun n => by simpa using runCount_none n 0⟩
  · intro hnone hi
    rw [process_value_eq] at hnone ⊢
    obtain ⟨a', ha', hout⟩ := (processAtoms_spec index (some v) c.methods).2.2.1 hnone i _ hi
    have : a' = .Count ⟨if v.is_nullish then k else k + 1⟩ := by
      by_cases hn : v.is_nullish <;>
        simpa [processAtom, hn] using ha'.symm
    rw [this] at hout
    exact hout
  · intro hnone hi
    rw [process_value_eq] at hnone ⊢
    obtain ⟨a', ha', hout⟩ := (processAtoms_spec index Option.none c.methods).2.2.1 hnone i _ hi
    have : a' = .Count ⟨k + 1⟩ := by
      simpa [processAtom, Count.add] using ha'.symm
    rw [this] at hout
    exact hout

/-- Witness for C4 at a concrete composite: a nullish value leaves the
count at 0, an absent value increments it. -/
theorem count_semantics_witness :
    (((⟨[.Count ⟨0⟩]⟩ : CompositeAggregator).process_value 0 (some (.Str ""))).1.methods[0]?
        = some (.Count ⟨if (DynamicValue.Str "").is_nullish then 0 else 0 + 1⟩))
    ∧ (((⟨[.Count ⟨0⟩]⟩ : CompositeAggregator).process_value 0 Option.none).1.methods[0]?
        = some (.Count ⟨0 + 1⟩)) :=
  ⟨(count_semantics ⟨[.Count ⟨0⟩]⟩ 0 (.Str "") 0 0).1 (by decide) (by decide),
   (count_semantics ⟨[.Count ⟨0⟩]⟩ 0 (.Str "") 0 0).2.1 (by decide) (by decide)⟩

theorem welford_add_eq (n : ℕ) (m s q : ℚ) :
    Welford.add ⟨n, .fin m, .fin s⟩ (.fin q)
      = ⟨n + 1, .fin (m + (q - m) / ((n : ℚ) + 1)),
         .fin (s + (q - m) * (q - (m + (q - m) / ((n : ℚ) + 1))))⟩ := by
  have hcast : ((n + 1 : ℕ) : ℚ) = (n : ℚ) + 1 := by push_cast; ring
  have hne : ¬((n : ℚ) + 1 = 0) := by positivity
  unfold Welford.add
  simp only [F64.sub, F64.add, F64.mul, F64.div, hcast, if_neg hne]

theorem welfordQ_shape (xs : List ℚ) :
    ∃ m s : ℚ, welfordQ xs = ⟨xs.length, .fin m, .fin s⟩ ∧ 0 ≤ s := by
  suffices h : ∀ (n : ℕ) (m s : ℚ), 0 ≤ s →
      ∃ m' s' : ℚ, xs.foldl (fun (w : Welford) q => w.add (.fin q))
          (⟨n, .fin m, .fin s⟩ : Welford)
        = (⟨n + xs.length, .fin m', .fin s'⟩ : Welford) ∧ 0 ≤ s' by
    obtain ⟨m', s', hw, hs'⟩ := h 0 0 0 le_rfl
    exact ⟨m', s', by simpa [welfordQ, Welford.new] using hw, hs'⟩
  induction xs with
  | nil => exact fun n m s hs => ⟨m, s, by simp, hs⟩
  | cons q rest ih =>
    intro n m s hs
    have hc : (0 : ℚ) < (n : ℚ) + 1 := by positivity
    have hkey : (q - m) * (q - (m + (q - m) / ((n : ℚ) + 1)))
        = (q - m) ^ 2 * ((n : ℚ) / ((n : ℚ) + 1)) := by
      field_simp
      ring
    have hincr : 0 ≤ s + (q - m) * (q - (m + (q - m) / ((n : ℚ) + 1))) := by
      have h2 : 0 ≤ (q - m) ^ 2 * ((n : ℚ) / ((n : ℚ) + 1)) := by positivity
      rw [hkey] at *
      linarith
    obtain ⟨m', s', hw, hs'⟩ := ih (n + 1) (m + (q - m) / ((n : ℚ) + 1))
      (s + (q - m) * (q - (m + (q - m) / ((n : ℚ) + 1)))) hincr
    refine ⟨m', s', ?_, hs'⟩
    rw [List.foldl_cons, welford_add_eq, hw]
    congr 1
    simp [List.length_cons]
    omega

/-- C7 counterexample: after a single `add`, `count = 1` satisfies
`count ≥ 1`, population variance is defined (`Some 0`), yet
`sample_variance` is `None` — so sample variance is not guarded by
`count ≥ 1` as the claim (quoting the spec) states. -/
theorem sample_variance_guard_cex :
    (welfordQ [5]).count = 1
    ∧ (welfordQ [5]).sample_variance = Option.none
    ∧ (welfordQ [5]).variance = some (.fin 0) := by
  have h : welfordQ [5] = ⟨1, .fin 5, .fin 0⟩ := by
    show Welford.add Welford.new (.fin 5) = _
    rw [show (Welford.new : Welford) = ⟨0, .fin 0, .fin 0⟩ from rfl, welford_add_eq]
    norm_num
  rw [h]
  refine ⟨rfl, rfl, ?_⟩
  simp [Welford.variance, F64.div]

/-- C7 (amended): `mean` is `None` iff `n = 0`; population `variance`
returns `M2/n` guarded by `count ≥ 1` (`None` only at `n = 0`, `Some 0` at
`n = 1`); `sample_variance` returns `M2/(n−1)` and is defined exactly for
`n ≥ 2` (guarded by `count ≥ 2`, not `count ≥ 1`); `stdev` and
`sample_stdev` are the square roots of the respective variances. -/
theorem welford_contract (xs : List ℚ) :
    ((welfordQ xs).count = xs.length)
    ∧ ((welfordQ xs).meanOpt = Option.none ↔ xs = [])
    ∧ ((welfordQ xs).variance = Option.none ↔ xs = [])
    ∧ (xs ≠ [] → (welfordQ xs).variance
        = some (F64.div (welfordQ xs).m2 (.fin (xs.length : ℚ))))
    ∧ (xs.length = 1 → (welfordQ xs).variance = some (.fin 0))
    ∧ ((welfordQ xs).sample_variance = Option.none ↔ xs.length < 2)
    ∧ (2 ≤ xs.length → (welfordQ xs).sample_variance
        = some (F64.div (welfordQ xs).m2 (.fin ((xs.length - 1 : ℕ) : ℚ))))
    ∧ (xs ≠ [] → ∃ s : ℚ, (welfordQ xs).m2 = .fin s ∧ 0 ≤ s
        ∧ (welfordQ xs).variance = some (.fin (s / (xs.length : ℚ)))
        ∧ (welfordQ xs).stdev = some (Real.sqrt ((s / (xs.length : ℚ) : ℚ) : ℝ))
        ∧ Real.sqrt ((s / (xs.length : ℚ) : ℚ) : ℝ) ^ 2 = (s : ℝ) / (xs.length : ℝ))
    ∧ (2 ≤ xs.length → ∃ s : ℚ, (welfordQ xs).m2 = .fin s ∧ 0 ≤ s
        ∧ (welfordQ xs).sample_stdev
            = some (Real.sqrt ((s / ((xs.length - 1 : ℕ) : ℚ) : ℚ) : ℝ))
        ∧ Real.sqrt ((s / ((xs.length - 1 : ℕ) : ℚ) : ℚ) : ℝ) ^ 2
            = (s : ℝ) / ((xs.length - 1 : ℕ) : ℝ)) := by
  obtain ⟨m, s, hw, hs⟩ := welfordQ_shape xs
  refine ⟨by rw [hw], ?_, ?_, ?_, ?_, ?_, ?_, ?_, ?_⟩
  · rw [hw]
    simp only [Welford.meanOpt]
    by_cases h0 : xs.length = 0
    · simp [h0, List.length_eq_zero.1 h0]
    · simp only [if_neg h0]
      simp only [reduceCtorEq, false_iff]
      exact fun h => h0 (by rw [h]; rfl)
  · rw [hw]
    simp only [Welford.variance, Nat.lt_one_iff]
    by_cases h0 : xs.length = 0
    · simp [h0, List.length_eq_zero.1 h0]
    · simp only [if_neg h0]
      simp only [reduceCtorEq, false_iff]
      exact fun h => h0 (by rw [h]; rfl)
  · intro hne
    rw [hw]
    have h0 : ¬(xs.length < 1) := by
      have := List.length_pos.2 hne
      omega
    simp [Welford.variance, h0]
  · intro h1
    obtain ⟨q, hq⟩ := List.length_eq_one.1 h1
    subst hq
    have h : welfordQ [q] = ⟨1, .fin q, .fin 0⟩ := by
      show Welford.add Welford.new (.fin q) = _
      rw [show (Welford.new : Welford) = ⟨0, .fin 0, .fin 0⟩ from rfl, welford_add_eq]
      norm_num
    rw [h]
    simp [Welford.variance, F64.div]
  · rw [hw]
    simp only [Welford.sample_variance]
    by_cases h2 : xs.length < 2
    · simp [h2]
    · simp [h2]
  · intro h2
    rw [hw]
    have h0 : ¬(xs.length < 2) := by omega
    simp [Welford.sample_variance, h0]
  · intro hne
    rw [hw]
    have hlen : xs.length ≠ 0 := fun h => hne (List.length_eq_zero.1 h)
    have hcast : ((xs.length : ℚ)) ≠ 0 := Nat.cast_ne_zero.2 hlen
    have h0 : ¬(xs.length < 1) := by omega
    refine ⟨s, rfl, hs, ?_, ?_, ?_⟩
    · simp [Welford.variance, h0, F64.div, hcast]
    · simp [Welford.stdev, Welford.variance, h0, F64.div, hcast, F64.toReal]
    · rw [Real.sq_sqrt (by positivity)]
      push_cast
      ring
  · intro h2
    rw [hw]
    have hlen : xs.length - 1 ≠ 0 := by omega
    have hcast : (((xs.length - 1 : ℕ) : ℚ)) ≠ 0 := Nat.cast_ne_zero.2 hlen
    have h0 : ¬(xs.length < 2) := by omega
    refine ⟨s, rfl, hs, ?_, ?_⟩
    · simp [Welford.sample_stdev, Welford.sample_variance, h0, F64.div, hcast, F64.toReal]
    · rw [Real.sq_sqrt (by positivity)]
      push_cast
      ring

/-- Witness for C7: concrete inputs discharging each hypothesis of the
contract. -/
theorem welford_contract_witness :
    ((welfordQ [1, 3]).variance
        = some (F64.div (welfordQ [1, 3]).m2 (.fin (([1, 3] : List ℚ).length : ℚ))))
    ∧ ((welfordQ [5]).variance = some (.fin 0))
    ∧ ((welfordQ [1, 3]).sample_variance
        = some (F64.div (welfordQ [1, 3]).m2
            (.fin ((([1, 3] : List ℚ).length - 1 : ℕ) : ℚ))))
    ∧ (∃ s : ℚ, (welfordQ [1, 3]).m2 = .fin s ∧ 0 ≤ s
        ∧ (welfordQ [1, 3]).variance
            = some (.fin (s / (([1, 3] : List ℚ).length : ℚ)))
        ∧ (welfordQ [1, 3]).stdev
            = some (Real.sqrt ((s / (([1, 3] : List ℚ).length : ℚ) : ℚ) : ℝ))
        ∧ Real.sqrt ((s / (([1, 3] : List ℚ).length : ℚ) : ℚ) : ℝ) ^ 2
            = (s : ℝ) / (([1, 3] : List ℚ).length : ℝ))
    ∧ (∃ s : ℚ, (welfordQ [1, 3]).m2 = .fin s ∧ 0 ≤ s
        ∧ (welfordQ [1, 3]).sample_stdev
            = some (Real.sqrt ((s / ((([1, 3] : List ℚ).length - 1 : ℕ) : ℚ) : ℚ) : ℝ))
        ∧ Real.sqrt ((s / ((([1, 3] : List ℚ).length - 1 : ℕ) : ℚ) : ℚ) : ℝ) ^ 2
            = (s : ℝ) / ((([1, 3] : List ℚ).length - 1 : ℕ) : ℝ)) :=
  ⟨(welford_contract [1, 3]).2.2.2.1 (by simp),
   (welford_contract [5]).2.2.2.2.1 (by simp),
   (welford_contract [1, 3]).2.2.2.2.2.2.1 (by simp),
   (welford_contract [1, 3]).2.2.2.2.2.2.2.1 (by simp),
   (welford_contract [1, 3]).2.2.2.2.2.2.2.2 (by simp)⟩

theorem add_method_spec (c : CompositeAggregator) (mth : ConcreteAggregationMethod) :
    (∀ (j : ℕ) (x : Aggregator), c.methods[j]? = some x
        → ((c.add_method mth).2).methods[j]? = some x)
    ∧ (((c.add_method mth).2).methods = c.methods
        ∨ ((c.add_method mth).2).methods
            = c.methods ++ [Aggregator.freshAtom (ConcreteAggregationMethod.methodAtomKind mth)])
    ∧ (∃ a, ((c.add_method mth).2).methods[(c.add_method mth).1]? = some a
        ∧ a.atomKind = ConcreteAggregationMethod.methodAtomKind mth) := by
  unfold CompositeAggregator.add_method CompositeAggregator.upsertAggregator
  cases hf : firstKindIdx c.methods (ConcreteAggregationMethod.methodAtomKind mth) with
  | some i =>
    refine ⟨fun j x hx => hx, Or.inl rfl, ?_⟩
    obtain ⟨a, ha, hak⟩ := firstKindIdx_some _ _ _ hf
    exact ⟨a, ha, hak⟩
  | none =>
    refine ⟨?_, Or.inr rfl, ?_⟩
    · intro j x hx
      have hj : j < c.methods.length := by
        by_contra hge
        rw [List.getElem?_eq_none (by omega)] at hx
        cases hx
      show (c.methods
          ++ [Aggregator.freshAtom (ConcreteAggregationMethod.methodAtomKind mth)])[j]?
        = some x
      rw [List.getElem?_append, if_pos hj]
      exact hx
    · refine ⟨Aggregator.freshAtom (ConcreteAggregationMethod.methodAtomKind mth), ?_,
        atomKind_freshAtom _⟩
      simp

theorem add_method_fresh (c : CompositeAggregator) (mth : ConcreteAggregationMethod)
    (h : ∀ a ∈ c.methods, a = Aggregator.freshAtom a.atomKind) :
    ∀ a ∈ ((c.add_method mth).2).methods, a = Aggregator.freshAtom a.atomKind := by
  rcases (add_method_spec c mth).2.1 with heq | heq <;> rw [heq]
  · exact h
  · intro a ha
    rcases List.mem_append.1 ha with ha | ha
    · exact h a ha
    · rw [List.mem_singleton.1 ha]
      rw [atomKind_freshAtom]

theorem add_method_count (c : CompositeAggregator)
    (h : ∀ a ∈ c.methods, a.atomKind = AtomKind.CountK) :
    ∀ a ∈ ((c.add_method .Count).2).methods, a.atomKind = AtomKind.CountK := by
  rcases (add_method_spec c .Count).2.1 with heq | heq <;> rw [heq]
  · exact h
  · intro a ha
    rcases List.mem_append.1 ha with ha | ha
    · exact h a ha
    · rw [List.mem_singleton.1 ha, atomKind_freshAtom]
      rfl

theorem plannerStep_found (p : ConcreteAggregationPlanner) (agg : ConcreteAggregation)
    (i : ℕ) (unit : PlannerExecutionUnit)
    (hf : p.execution_plan.findIdx? (fun u => u.expr_key = agg.expr_key) = some i)
    (hu : p.execution_plan[i]? = some unit) :
    plannerStep p agg
      = { execution_plan := p.execution_plan.set i
            { unit with
              aggregator_blueprint := (unit.aggregator_blueprint.add_method agg.method).2 }
          output_plan := p.output_plan
            ++ [⟨i, (unit.aggregator_blueprint.add_method agg.method).1,
                 agg.agg_name, agg.method⟩] } := by
  unfold plannerStep
  rw [hf]
  simp only [hu]

theorem plannerStep_notfound (p : ConcreteAggregationPlanner) (agg : ConcreteAggregation)
    (hf : p.execution_plan.findIdx? (fun u => u.expr_key = agg.expr_key) = Option.none) :
    plannerStep p agg
      = { execution_plan := p.execution_plan
            ++ [⟨agg.expr_key, agg.expr, (CompositeAggregator.new.add_method agg.method).2⟩]
          output_plan := p.output_plan
            ++ [⟨p.execution_plan.length, (CompositeAggregator.new.add_method agg.method).1,
                 agg.agg_name, agg.method⟩] } := by
  unfold plannerStep
  rw [hf]

theorem plannerStep_spec (p : ConcreteAggregationPlanner) (agg : ConcreteAggregation) :
    ((plannerStep p agg).execution_plan.map (·.expr_key)
      = if agg.expr_key ∈ p.execution_plan.map (·.expr_key)
        then p.execution_plan.map (·.expr_key)
        else p.execution_plan.map (·.expr_key) ++ [agg.expr_key])
    ∧ (∀ (i : ℕ) (eu : PlannerExecutionUnit), p.execution_plan[i]? = some eu →
        ∃ eu', (plannerStep p agg).execution_plan[i]? = some eu'
          ∧ eu'.expr_key = eu.expr_key ∧ eu'.expr = eu.expr
          ∧ ∀ (j : ℕ) (x : Aggregator), eu.aggregator_blueprint.methods[j]? = some x →
              eu'.aggregator_blueprint.methods[j]? = some x)
    ∧ (∃ u : PlannerOutputUnit,
        (plannerStep p agg).output_plan = p.output_plan ++ [u]
        ∧ u.agg_name = agg.agg_name ∧ u.agg_method = agg.method
        ∧ outUnitWF (plannerStep p agg).execution_plan u
        ∧ (∃ eu, (plannerStep p agg).execution_plan[u.expr_index]? = some eu
            ∧ eu.expr_key = agg.expr_key)) := by
  cases hf : p.execution_plan.findIdx? (fun u => u.expr_key = agg.expr_key) with
  | some i =>
    obtain ⟨hi, hpi, -⟩ := List.findIdx?_eq_some_iff_getElem.1 hf
    have hu : p.execution_plan[i]? = some (p.execution_plan[i]) :=
      List.getElem?_eq_getElem hi
    set unit := p.execution_plan[i] with hunit
    have hkey : unit.expr_key = agg.expr_key := by
      simpa using hpi
    rw [plannerStep_found p agg i unit hf hu]
    have hset : ∀ j : ℕ,
        (p.execution_plan.set i
          { unit with
            aggregator_blueprint := (unit.aggregator_blueprint.add_method agg.method).2 })[j]?
          = if j = i
            then some { unit with
              aggregator_blueprint := (unit.aggregator_blueprint.add_method agg.method).2 }
            else p.execution_plan[j]? := by
      intro j
      by_cases hj : j = i
      · subst hj
        simp [List.getElem?_set_self hi]
      · rw [List.getElem?_set_ne (fun h => hj h.symm), if_neg hj]
    refine ⟨?_, ?_, ?_⟩
    · rw [if_pos (List.mem_map.2 ⟨unit, List.getElem?_mem hu, hkey⟩)]
      refine List.ext_getElem? fun j => ?_
      rw [List.getElem?_map, List.getElem?_map, hset j]
      by_cases hj : j = i
      · subst hj
        rw [if_pos rfl, hu]
        rfl
      · rw [if_neg hj]
    · intro k eu hk
      by_cases hki : k = i
      · subst hki
        have heu : unit = eu := by
          injection (hu.symm.trans hk)
        subst heu
        refine ⟨{ unit with
            aggregator_blueprint := (unit.aggregator_blueprint.add_method agg.method).2 },
          ?_, rfl, rfl, (add_method_spec unit.aggregator_blueprint agg.method).1⟩
        rw [hset k, if_pos rfl]
      · exact ⟨eu, by rw [hset k, if_neg hki]; exact hk, rfl, rfl, fun j x hx => hx⟩
    · refine ⟨⟨i, (unit.aggregator_blueprint.add_method agg.method).1,
        agg.agg_name, agg.method⟩, rfl, rfl, rfl, ?_, ?_⟩
      · refine ⟨{ unit with
            aggregator_blueprint := (unit.aggregator_blueprint.add_method agg.method).2 },
          ?_, ?_⟩
        · rw [hset i, if_pos rfl]
        · exact (add_method_spec unit.aggregator_blueprint agg.method).2.2
      · refine ⟨{ unit with
            aggregator_blueprint := (unit.aggregator_blueprint.add_method agg.method).2 },
          ?_, hkey⟩
        rw [hset i, if_pos rfl]
  | none =>
    have hnomem : agg.expr_key ∉ p.execution_plan.map (·.expr_key) := by
      intro hmem
      obtain ⟨eu, heu, hkey⟩ := List.mem_map.1 hmem
      have := List.findIdx?_eq_none_iff.1 hf eu heu
      simp [hkey] at this
    rw [plannerStep_notfound p agg hf]
    refine ⟨?_, ?_, ?_⟩
    · rw [if_neg hnomem, List.map_append]
      rfl
    · intro k eu hk
      have hkl : k < p.execution_plan.length := by
        by_contra hge
        rw [List.getElem?_eq_none (by omega)] at hk
        cases hk
      refine ⟨eu, ?_, rfl, rfl, fun j x hx => hx⟩
      show (p.execution_plan ++ [_])[k]? = some eu
      rw [List.getElem?_append, if_pos hkl]
      exact hk
    · refine ⟨⟨p.execution_plan.length, (CompositeAggregator.new.add_method agg.method).1,
        agg.agg_name, agg.method⟩, rfl, rfl, rfl, ?_, ?_⟩
      · refine ⟨_, List.getElem?_concat_length _ _, ?_⟩
        exact (add_method_spec CompositeAggregator.new agg.method).2.2
      · exact ⟨_, List.getElem?_concat_length _ _, rfl⟩

theorem outUnitWF_mono (plan plan' : List PlannerExecutionUnit) (u : PlannerOutputUnit)
    (stab : ∀ (i : ℕ) (eu : PlannerExecutionUnit), plan[i]? = some eu →
      ∃ eu', plan'[i]? = some eu'
        ∧ eu'.expr_key = eu.expr_key ∧ eu'.expr = eu.expr
        ∧ ∀ (j : ℕ) (x : Aggregator), eu.aggregator_blueprint.methods[j]? = some x →
            eu'.aggregator_blueprint.methods[j]? = some x)
    (h : outUnitWF plan u) : outUnitWF plan' u := by
  obtain ⟨eu, heu, a, ha, hak⟩ := h
  obtain ⟨eu', heu', -, -, hpre⟩ := stab _ _ heu
  exact ⟨eu', heu', a, hpre _ _ ha, hak⟩

theorem plannerFold_spec (cas : List ConcreteAggregation) :
    ∀ p : ConcreteAggregationPlanner,
    ((cas.foldl plannerStep p).output_plan.map (fun u => (u.agg_name, u.agg_method))
        = p.output_plan.map (fun u => (u.agg_name, u.agg_method))
          ++ cas.map (fun a => (a.agg_name, a.method)))
    ∧ (((p.execution_plan.map (·.expr_key)).Nodup) →
        (((cas.foldl plannerStep p).execution_plan.map (·.expr_key)).Nodup))
    ∧ (∀ k, k ∈ (cas.foldl plannerStep p).execution_plan.map (·.expr_key)
        ↔ k ∈ p.execution_plan.map (·.expr_key) ∨ k ∈ cas.map (·.expr_key))
    ∧ (∀ (i : ℕ) (eu : PlannerExecutionUnit), p.execution_plan[i]? = some eu →
        ∃ eu', (cas.foldl plannerStep p).execution_plan[i]? = some eu'
          ∧ eu'.expr_key = eu.expr_key ∧ eu'.expr = eu.expr
          ∧ ∀ (j : ℕ) (x : Aggregator), eu.aggregator_blueprint.methods[j]? = some x →
              eu'.aggregator_blueprint.methods[j]? = some x)
    ∧ (∃ news : List PlannerOutputUnit,
        (cas.foldl plannerStep p).output_plan = p.output_plan ++ news
        ∧ ∀ (t : ℕ) (u : PlannerOutputUnit), news[t]? = some u →
            ∃ a, cas[t]? = some a
              ∧ u.agg_name = a.agg_name ∧ u.agg_method = a.method
              ∧ outUnitWF (cas.foldl plannerStep p).execution_plan u
              ∧ ∃ eu, (cas.foldl plannerStep p).execution_plan[u.expr_index]? = some eu
                  ∧ eu.expr_key = a.expr_key) := by
  induction cas with
  | nil =>
    intro p
    refine ⟨by simp, fun h => h, fun k => by simp, fun i eu h => ⟨eu, h, rfl, rfl, fun j x hx => hx⟩,
      [], by simp, fun t u ht => (by simp at ht)⟩
  | cons a rest ih =>
    intro p
    obtain ⟨skeys, sstab, u0, hout, hname, hmethod, hwf, eu0, heu0, hkey0⟩ :=
      plannerStep_spec p a
    obtain ⟨ihA, ihB, ihMem, ihC, news', hnews', ihD⟩ := ih (plannerStep p a)
    have hfold : (a :: rest).foldl plannerStep p = rest.foldl plannerStep (plannerStep p a) :=
      List.foldl_cons _ _
    refine ⟨?_, ?_, ?_, ?_, ?_⟩
    · rw [hfold, ihA, hout]
      simp [hname, hmethod]
    · intro hnd
      rw [hfold]
      refine ihB ?_
      rw [skeys]
      by_cases hmem : a.expr_key ∈ p.execution_plan.map (·.expr_key)
      · rwa [if_pos hmem]
      · rw [if_neg hmem]
        exact List.Nodup.append hnd (List.nodup_singleton _) (by simpa using hmem)
    · intro k
      rw [hfold, ihMem k, skeys]
      by_cases hmem : a.expr_key ∈ p.execution_plan.map (·.expr_key)
      · rw [if_pos hmem]
        simp only [List.map_cons, List.mem_cons]
        constructor
        · rintro (h | h)
          · exact Or.inl h
          · exact Or.inr (Or.inr h)
        · rintro (h | h | h)
          · exact Or.inl h
          · exact Or.inl (by rw [h]; exact hmem)
          · exact Or.inr h
      · rw [if_neg hmem]
        simp only [List.mem_append, List.mem_singleton, List.map_cons, List.mem_cons]
        tauto
    · intro i eu heu
      rw [hfold]
      obtain ⟨eu', heu', hk', he', hp'⟩ := sstab i eu heu
      obtain ⟨eu'', heu'', hk'', he'', hp''⟩ := ihC i eu' heu'
      exact ⟨eu'', heu'', hk''.trans hk', he''.trans he',
        fun j x hx => hp'' j x (hp' j x hx)⟩
    · refine ⟨u0 :: news', ?_, ?_⟩
      · rw [hfold, hnews', hout]
        simp
      · intro t u ht
        cases t with
        | zero =>
          simp only [List.getElem?_cons_zero, Option.some.injEq] at ht
          subst ht
          refine ⟨a, by simp, hname, hmethod, ?_, ?_⟩
          · rw [hfold]
            exact outUnitWF_mono _ _ _ ihC hwf
          · obtain ⟨eu'', heu'', hk'', -, -⟩ := ihC _ _ heu0
            rw [hfold]
            exact ⟨eu'', heu'', hk''.trans hkey0⟩
        | succ t' =>
          simp only [List.getElem?_cons_succ] at ht
          obtain ⟨a', ha', hn', hm', hwf', heu'⟩ := ihD t' u ht
          exact ⟨a', by simpa using ha', hn', hm', by rw [hfold]; exact hwf',
            by rw [hfold]; exact heu'⟩

theorem plannerStep_fresh (p : ConcreteAggregationPlanner) (agg : ConcreteAggregation)
    (h : ∀ eu ∈ p.execution_plan, ∀ x ∈ eu.aggregator_blueprint.methods,
        x = Aggregator.freshAtom x.atomKind) :
    ∀ eu ∈ (plannerStep p agg).execution_plan, ∀ x ∈ eu.aggregator_blueprint.methods,
        x = Aggregator.freshAtom x.atomKind := by
  cases hf : p.execution_plan.findIdx? (fun u => u.expr_key = agg.expr_key) with
  | some i =>
    obtain ⟨hi, -, -⟩ := List.findIdx?_eq_some_iff_getElem.1 hf
    rw [plannerStep_found p agg i (p.execution_plan[i]) hf (List.getElem?_eq_getElem hi)]
    intro eu heu
    obtain ⟨j, hj⟩ := List.mem_iff_getElem?.1 heu
    by_cases hji : j = i
    · subst hji
      rw [List.getElem?_set_self (by simpa using hi)] at hj
      injection hj with hj
      subst hj
      exact add_method_fresh _ _ (h _ (List.getElem_mem hi))
    · rw [List.getElem?_set_ne (fun hh => hji hh.symm)] at hj
      exact h eu (List.getElem?_mem hj)
  | none =>
    rw [plannerStep_notfound p agg hf]
    intro eu heu
    rcases List.mem_append.1 heu with heu | heu
    · exact h eu heu
    · rw [List.mem_singleton.1 heu]
      exact add_method_fresh CompositeAggregator.new agg.method (fun x hx => (by simp [CompositeAggregator.new] at hx))

theorem plannerFold_fresh : ∀ (cas : List ConcreteAggregation)
    (p : ConcreteAggregationPlanner),
    (∀ eu ∈ p.execution_plan, ∀ x ∈ eu.aggregator_blueprint.methods,
        x = Aggregator.freshAtom x.atomKind) →
    ∀ eu ∈ (cas.foldl plannerStep p).execution_plan,
      ∀ x ∈ eu.aggregator_blueprint.methods, x = Aggregator.freshAtom x.atomKind
  | [], p, h => h
  | a :: rest, p, h => by
    rw [List.foldl_cons]
    exact plannerFold_fresh rest (plannerStep p a) (plannerStep_fresh p a h)

theorem plannerFold_onlyCount : ∀ (cas : List ConcreteAggregation)
    (p : ConcreteAggregationPlanner),
    (∀ x ∈ cas, ∀ y ∈ cas, x.expr_key = y.expr_key →
        (x.expr = Option.none ↔ y.expr = Option.none)) →
    (∀ x ∈ cas, x.expr = Option.none → x.method = ConcreteAggregationMethod.Count) →
    (∀ eu ∈ p.execution_plan, eu.expr = Option.none →
        (∀ x ∈ eu.aggregator_blueprint.methods, x.atomKind = AtomKind.CountK)
        ∧ (∀ y ∈ cas, y.expr_key = eu.expr_key → y.expr = Option.none)) →
    absentExprOnlyCount (cas.foldl plannerStep p).execution_plan
  | [], p, _, _, hinv => fun eu heu hexpr => (hinv eu heu hexpr).1
  | a :: rest, p, hA, hB, hinv => by
    rw [List.foldl_cons]
    apply plannerFold_onlyCount rest (plannerStep p a)
    · intro x hx y hy hxy
      exact hA x (List.mem_cons_of_mem a hx) y (List.mem_cons_of_mem a hy) hxy
    · intro x hx
      exact hB x (List.mem_cons_of_mem a hx)
    · intro eu heu hexpr
      cases hf : p.execution_plan.findIdx? (fun u => u.expr_key = a.expr_key) with
      | some i =>
        obtain ⟨hi, hpi, -⟩ := List.findIdx?_eq_some_iff_getElem.1 hf
        have hkey : (p.execution_plan[i]).expr_key = a.expr_key := by simpa using hpi
        rw [plannerStep_found p a i (p.execution_plan[i]) hf
          (List.getElem?_eq_getElem hi)] at heu
        obtain ⟨j, hj⟩ := List.mem_iff_getElem?.1 heu
        by_cases hji : j = i
        · subst hji
          rw [List.getElem?_set_self (by simpa using hi)] at hj
          injection hj with hj
          subst hj
          simp only at hexpr
          obtain ⟨hcnt, hkeys⟩ :=
            hinv (p.execution_plan[j]) (List.getElem_mem hi) hexpr
          have hanone : a.expr = Option.none :=
            hkeys a (List.mem_cons_self a rest) hkey.symm
          have hamethod : a.method = ConcreteAggregationMethod.Count :=
            hB a (List.mem_cons_self a rest) hanone
          constructor
          · simp only
            rw [hamethod]
            exact add_method_count _ hcnt
          · intro y hy hky
            exact hkeys y (List.mem_cons_of_mem a hy) hky
        · rw [List.getElem?_set_ne (fun hh => hji hh.symm)] at hj
          obtain ⟨hcnt, hkeys⟩ := hinv eu (List.getElem?_mem hj) hexpr
          exact ⟨hcnt, fun y hy hky => hkeys y (List.mem_cons_of_mem a hy) hky⟩
      | none =>
        rw [plannerStep_notfound p a hf] at heu
        rcases List.mem_append.1 heu with heu | heu
        · obtain ⟨hcnt, hkeys⟩ := hinv eu heu hexpr
          exact ⟨hcnt, fun y hy hky => hkeys y (List.mem_cons_of_mem a hy) hky⟩
        · rw [List.mem_singleton.1 heu] at hexpr ⊢
          simp only at hexpr
          have hamethod : a.method = ConcreteAggregationMethod.Count :=
            hB a (List.mem_cons_self a rest) hexpr
          constructor
          · simp only
            rw [hamethod]
            exact add_method_count CompositeAggregator.new
              (fun x hx => (by simp [CompositeAggregator.new] at hx))
          · intro y hy hky
            simp only at hky
            exact (hA y (List.mem_cons_of_mem a hy) a (List.mem_cons_self a rest) hky).2 hexpr

theorem process_value_kinds (agg : CompositeAggregator) (index : ℕ)
    (vopt : Option DynamicValue) :
    ((agg.process_value index vopt).1).methods.map Aggregator.atomKind
      = agg.methods.map Aggregator.atomKind := by
  rw [process_value_eq]
  apply List.ext_getElem?
  intro j
  rw [List.getElem?_map, List.getElem?_map]
  exact (processAtoms_spec index vopt agg.methods).2.1 j

theorem unitStep_state (unit : PlannerExecutionUnit) (agg : CompositeAggregator)
    (index : ℕ) (record : List String) :
    (unitStep unit agg index record).1 = agg
    ∨ ∃ vopt, (unitStep unit agg index record).1 = (agg.process_value index vopt).1 := by
  unfold unitStep
  cases hev : (match unit.expr with
      | Option.none => Except.ok Option.none
      | some e => (eval_expr e record).map some) with
  | error e => exact Or.inl rfl
  | ok vopt =>
    refine Or.inr ⟨vopt, ?_⟩
    cases hpe : (agg.process_value index vopt).2 with
    | none => simp [hpe]
    | some pe =>
      cases pe with
      | call ce => simp [hpe]
      | unreachableReached => simp [hpe]

theorem unitStep_kinds (unit : PlannerExecutionUnit) (agg : CompositeAggregator)
    (index : ℕ) (record : List String) :
    ((unitStep unit agg index record).1).methods.map Aggregator.atomKind
      = agg.methods.map Aggregator.atomKind := by
  rcases unitStep_state unit agg index record with h | ⟨vopt, h⟩
  · rw [h]
  · rw [h, process_value_kinds]

theorem processAtom_some_no_panic (index : ℕ) (v : DynamicValue) (a : Aggregator) :
    processAtom index (some v) a ≠ .error .unreachableReached := by
  cases a with
  | AllAny inner => simp [processAtom]
  | Count inner => simp [processAtom]
  | FirstLast inner => simp [processAtom]
  | Extent inner =>
    cases hr : v.try_as_number <;> simp [processAtom, hr, Except.mapError, Except.map]
  | LexicographicExtent inner =>
    cases hr : v.try_as_str <;> simp [processAtom, hr, Except.mapError, Except.map]
  | Frequencies inner =>
    cases hr : v.try_as_str <;> simp [processAtom, hr, Except.mapError, Except.map]
  | Numbers inner =>
    cases hr : v.try_as_number <;> simp [processAtom, hr, Except.mapError, Except.map]
  | Sum inner =>
    cases hr : v.try_as_number <;> simp [processAtom, hr, Except.mapError, Except.map]
  | Welford inner =>
    cases hr : v.try_as_f64 <;> simp [processAtom, hr, Except.mapError, Except.map]

theorem kind_CountK_shape (x : Aggregator) (h : x.atomKind = AtomKind.CountK) :
    ∃ inner, x = .Count inner := by
  cases x <;> simp [Aggregator.atomKind] at h <;> exact ⟨_, rfl⟩

theorem process_value_no_panic (agg : CompositeAggregator) (index : ℕ)
    (vopt : Option DynamicValue)
    (h : vopt = Option.none → ∀ x ∈ agg.methods, x.atomKind = AtomKind.CountK) :
    (agg.process_value index vopt).2 ≠ some .unreachableReached := by
  rw [process_value_eq]
  intro habs
  obtain ⟨k, a, hka, herr, -, -⟩ :=
    (processAtoms_spec index vopt agg.methods).2.2.2 _ habs
  cases vopt with
  | some v => exact processAtom_some_no_panic index v a herr
  | none =>
    obtain ⟨inner, rfl⟩ := kind_CountK_shape a (h rfl a (List.getElem?_mem hka))
    simp [processAtom] at herr

theorem unitStep_no_panic (unit : PlannerExecutionUnit) (agg : CompositeAggregator)
    (index : ℕ) (record : List String)
    (h : unit.expr = Option.none → ∀ x ∈ agg.methods, x.atomKind = AtomKind.CountK) :
    (unitStep unit agg index record).2 ≠ some .panicked := by
  unfold unitStep
  cases hexpr : unit.expr with
  | none =>
    have hok : (agg.process_value index Option.none).2 ≠ some .unreachableReached :=
      process_value_no_panic agg index Option.none (fun _ => h hexpr)
    cases hpe : (agg.process_value index Option.none).2 with
    | none => simp [hpe]
    | some pe =>
      cases pe with
      | call ce => simp [hpe]
      | unreachableReached => exact absurd hpe hok
  | some e =>
    cases hev : eval_expr e record with
    | error ee => simp [hev, Except.map]
    | ok v =>
      have hok : (agg.process_value index (some v)).2 ≠ some .unreachableReached :=
        process_value_no_panic agg index (some v) (fun habs => (by cases habs))
      simp only [hev, Except.map]
      cases hpe : (agg.process_value index (some v)).2 with
      | none => simp [hpe]
      | some pe =>
        cases pe with
        | call ce => simp [hpe]
        | unreachableReached => exact absurd hpe hok

theorem runWR_cons (u : PlannerExecutionUnit) (us : List PlannerExecutionUnit)
    (a : CompositeAggregator) (as_ : List CompositeAggregator) (index : ℕ)
    (record : List String) :
    run_with_record_on_aggregators (u :: us) (a :: as_) index record
      = match (unitStep u a index record).2 with
        | some e => ((unitStep u a index record).1 :: as_, some e)
        | Option.none =>
          ((unitStep u a index record).1
              :: (run_with_record_on_aggregators us as_ index record).1,
           (run_with_record_on_aggregators us as_ index record).2) := by
  show (match unitStep u a index record with
    | (agg', some e) => (agg' :: as_, some e)
    | (agg', Option.none) =>
      let (rest, e) := run_with_record_on_aggregators us as_ index record
      (agg' :: rest, e)) = _
  cases hus : unitStep u a index record with
  | mk a' pe =>
    cases pe with
    | none => rfl
    | some e => rfl

theorem runWR_spec (index : ℕ) (record : List String) :
    ∀ (units : List PlannerExecutionUnit) (aggs : List CompositeAggregator),
    ((run_with_record_on_aggregators units aggs index record).1.length = aggs.length)
    ∧ (∀ i : ℕ,
        (((run_with_record_on_aggregators units aggs index record).1[i]?).map
            (fun c => c.methods.map Aggregator.atomKind))
          = ((aggs[i]?).map (fun c => c.methods.map Aggregator.atomKind)))
    ∧ ((∀ (i : ℕ) (u : PlannerExecutionUnit) (a : CompositeAggregator),
          units[i]? = some u → aggs[i]? = some a →
          u.expr = Option.none → ∀ x ∈ a.methods, x.atomKind = AtomKind.CountK) →
        (run_with_record_on_aggregators units aggs index record).2 ≠ some .panicked)
    ∧ (∀ e, (run_with_record_on_aggregators units aggs index record).2 = some e →
        ∃ (k : ℕ) (u : PlannerExecutionUnit) (a : CompositeAggregator),
          units[k]? = some u ∧ aggs[k]? = some a
          ∧ (unitStep u a index record).2 = some e
          ∧ (run_with_record_on_aggregators units aggs index record).1[k]?
              = some (unitStep u a index record).1
          ∧ (∀ j : ℕ, k < j →
              (run_with_record_on_aggregators units aggs index record).1[j]? = aggs[j]?)
          ∧ (∀ j : ℕ, j < k → ∃ u' a', units[j]? = some u' ∧ aggs[j]? = some a'
              ∧ (unitStep u' a' index record).2 = Option.none
              ∧ (run_with_record_on_aggregators units aggs index record).1[j]?
                  = some (unitStep u' a' index record).1)) := by
  intro units
  induction units with
  | nil =>
    intro aggs
    exact ⟨rfl, fun i => rfl, fun _ h => (by cases h), fun e he => (by cases he)⟩
  | cons u us ih =>
    intro aggs
    cases aggs with
    | nil =>
      exact ⟨rfl, fun i => rfl, fun _ h => (by cases h), fun e he => (by cases he)⟩
    | cons a as_ =>
      rw [runWR_cons]
      cases hpe : (unitStep u a index record).2 with
      | some e0 =>
        simp only
        refine ⟨by simp, ?_, ?_, ?_⟩
        · intro i
          cases i with
          | zero => simp [unitStep_kinds]
          | succ j => simp
        · intro hcnt habs
          have := unitStep_no_panic u a index record (hcnt 0 u a (by simp) (by simp))
          injection habs with habs
          rw [habs] at hpe
          exact this hpe
        · intro e he
          injection he with he
          subst he
          refine ⟨0, u, a, by simp, by simp, hpe, by simp, ?_, ?_⟩
          · intro j hj
            cases j with
            | zero => omega
            | succ j' => simp
          · intro j hj
            omega
      | none =>
        simp only
        obtain ⟨ihlen, ihkind, ihpanic, iherr⟩ := ih as_
        refine ⟨by simpa using ihlen, ?_, ?_, ?_⟩
        · intro i
          cases i with
          | zero => simp [unitStep_kinds]
          | succ j => simpa using ihkind j
        · intro hcnt
          exact ihpanic (fun i u' a' hu' ha' =>
            hcnt (i + 1) u' a' (by simpa using hu') (by simpa using ha'))
        · intro e he
          obtain ⟨k, u', a', hu', ha', hstep, hout, hsuf, hpre⟩ := iherr e he
          refine ⟨k + 1, u', a', by simpa using hu', by simpa using ha', hstep,
            by simpa using hout, ?_, ?_⟩
          · intro j hj
            cases j with
            | zero => omega
            | succ j' => simpa using hsuf j' (by omega)
          · intro j hj
            cases j with
            | zero =>
              exact ⟨u, a, by simp, by simp, hpe, by simp⟩
            | succ j' =>
              obtain ⟨u'', a'', h1, h2, h3, h4⟩ := hpre j' (by omega)
              exact ⟨u'', a'', by simpa using h1, by simpa using h2, h3, by simpa using h4⟩

theorem stepRecords_shape (units : List PlannerExecutionUnit)
    (recs : List (ℕ × List String)) :
    ∀ aggs : List CompositeAggregator, aggsShapeOK units aggs →
    aggsShapeOK units (stepRecords units recs aggs) := by
  induction recs with
  | nil => exact fun aggs h => h
  | cons r rest ih =>
    intro aggs h
    rw [stepRecords, List.foldl_cons]
    apply ih
    obtain ⟨hlen, hkinds⟩ := h
    obtain ⟨rlen, rkinds, -, -⟩ := runWR_spec r.1 r.2 units aggs
    exact ⟨by rw [rlen, hlen], fun i => (rkinds i).trans (hkinds i)⟩

theorem finalizeAtom_kind (a : Aggregator) :
    (Aggregator.finalizeAtom a).atomKind = a.atomKind := by
  cases a <;> rfl

theorem finalize_kinds (c : CompositeAggregator) :
    (c.finalize).methods.map Aggregator.atomKind = c.methods.map Aggregator.atomKind := by
  unfold CompositeAggregator.finalize
  simp only [List.map_map]
  exact List.map_congr_left (fun a _ => finalizeAtom_kind a)

theorem getFinalValue_total (a : Aggregator) (mth : ConcreteAggregationMethod)
    (h : a.atomKind = ConcreteAggregationMethod.methodAtomKind mth) :
    ∃ v, a.getFinalValue mth = some v := by
  cases mth <;> cases a <;>
    (try (simp [ConcreteAggregationMethod.methodAtomKind, Aggregator.atomKind] at h)) <;>
    exact ⟨_, rfl⟩

theorem mapM_isSome {α β : Type} (f : α → Option β) :
    ∀ l : List α, (∀ x ∈ l, (f x).isSome) → ∃ ys, l.mapM f = some ys ∧ ys.length = l.length
  | [], _ => ⟨[], rfl, rfl⟩
  | x :: xs, h => by
    obtain ⟨y, hy⟩ := Option.isSome_iff_exists.1 (h x (List.mem_cons_self x xs))
    obtain ⟨ys, hys, hlen⟩ := mapM_isSome f xs (fun z hz => h z (List.mem_cons_of_mem x hz))
    refine ⟨y :: ys, ?_, by simp [hlen]⟩
    simp only [List.mapM_cons, hy, hys]
    rfl

theorem mapM_map_rel {α β γ : Type} (f : α → Option β) (g : β → γ) (h : α → γ) :
    ∀ l : List α, (∀ x ∈ l, ∃ v, f x = some v ∧ g v = h x) →
    ∃ ys, l.mapM f = some ys ∧ ys.map g = l.map h
  | [], _ => ⟨[], rfl, rfl⟩
  | x :: xs, hl => by
    obtain ⟨v, hv, hgv⟩ := hl x (List.mem_cons_self x xs)
    obtain ⟨ys, hys, hmap⟩ := mapM_map_rel f g h xs (fun z hz => hl z (List.mem_cons_of_mem x hz))
    refine ⟨v :: ys, ?_, by simp [hmap, hgv]⟩
    simp only [List.mapM_cons, hv, hys]
    rfl

theorem results_some (p : ConcreteAggregationPlanner) (aggs : List CompositeAggregator)
    (hwf : ∀ u ∈ p.output_plan, outUnitWF p.execution_plan u)
    (hshape : aggsShapeOK p.execution_plan aggs) :
    ∃ vals, p.results aggs = some vals ∧ vals.length = p.output_plan.length := by
  unfold ConcreteAggregationPlanner.results
  apply mapM_isSome
  intro u hu
  obtain ⟨eu, heu, atom, hatom, hkind⟩ := hwf u hu
  obtain ⟨hlen, hkinds⟩ := hshape
  have hei : u.expr_index < p.execution_plan.length := by
    by_contra hge
    rw [List.getElem?_eq_none (by omega)] at heu
    cases heu
  have hlt2 : u.expr_index < aggs.length := by omega
  obtain ⟨c, hcu⟩ : ∃ c, aggs[u.expr_index]? = some c :=
    ⟨aggs.get ⟨u.expr_index, hlt2⟩, List.getElem?_eq_getElem hlt2⟩
  have hkind_eq := hkinds u.expr_index
  rw [heu, hcu] at hkind_eq
  simp only [Option.map_some'] at hkind_eq
  injection hkind_eq with hkind_eq
  have hatom' : (c.methods[u.aggregator_index]?).map
      Aggregator.atomKind = some atom.atomKind := by
    rw [← List.getElem?_map, hkind_eq, List.getElem?_map, hatom]
    rfl
  obtain ⟨atom', hatom'eq⟩ : ∃ atom',
      c.methods[u.aggregator_index]? = some atom' := by
    cases hx : c.methods[u.aggregator_index]? with
    | none => rw [hx] at hatom'; cases hatom'
    | some atom' => exact ⟨atom', rfl⟩
  have hkatom' : atom'.atomKind = ConcreteAggregationMethod.methodAtomKind u.agg_method := by
    rw [hatom'eq] at hatom'
    simp only [Option.map_some'] at hatom'
    injection hatom' with hk
    rw [hk, hkind]
  obtain ⟨v, hv⟩ := getFinalValue_total atom' u.agg_method hkatom'
  rw [hcu]
  simp [hatom'eq, hv]

theorem nodup_map_idx {α β : Type} (f : α → β) (l : List α)
    (hnd : (l.map f).Nodup) (i j : ℕ) (x y : α)
    (hx : l[i]? = some x) (hy : l[j]? = some y) (hf : f x = f y) : i = j := by
  have hi : i < l.length := by
    by_contra hge
    rw [List.getElem?_eq_none (by omega)] at hx
    cases hx
  have hx' : (l.map f)[i]? = some (f x) := by
    rw [List.getElem?_map, hx]
    rfl
  have hy' : (l.map f)[j]? = some (f y) := by
    rw [List.getElem?_map, hy]
    rfl
  exact List.getElem?_inj (by simpa using hi) hnd
    (by rw [hx', hy', hf])

theorem instantiate_shape (p : ConcreteAggregationPlanner) :
    aggsShapeOK p.execution_plan p.instantiate_aggregators := by
  refine ⟨by simp [ConcreteAggregationPlanner.instantiate_aggregators], fun i => ?_⟩
  unfold ConcreteAggregationPlanner.instantiate_aggregators
  rw [List.getElem?_map]
  cases hx : p.execution_plan[i]? <;> simp

theorem finalize_shape (plan : List PlannerExecutionUnit) (aggs : List CompositeAggregator)
    (h : aggsShapeOK plan aggs) :
    aggsShapeOK plan (aggs.map CompositeAggregator.finalize) := by
  obtain ⟨hlen, hk⟩ := h
  refine ⟨by simpa using hlen, fun i => ?_⟩
  rw [List.getElem?_map]
  cases hx : aggs[i]? with
  | none =>
    have := hk i
    rw [hx] at this
    simpa using this
  | some c =>
    have := hk i
    rw [hx] at this
    simp only [Option.map_some'] at this ⊢
    rw [finalize_kinds]
    exact this

/-- C1: the planner emits exactly one output-plan entry per aggregation, in
the order of the aggregation list (names and methods aligned index by
index); it keeps exactly one execution unit per distinct expression key
and routes aggregations sharing a key to the same unit; and the record
produced by `finalize` has exactly `|L|` fields, whatever record stream
was submitted. -/
theorem planner_output_alignment (cas : List ConcreteAggregation)
    (recs : List (ℕ × List String)) :
    ((plannerFrom cas).output_plan.length = cas.length)
    ∧ ((plannerFrom cas).output_plan.map (·.agg_name) = cas.map (·.agg_name))
    ∧ ((plannerFrom cas).output_plan.map (·.agg_method) = cas.map (·.method))
    ∧ (((plannerFrom cas).execution_plan.map (·.expr_key)).Nodup)
    ∧ (∀ k, k ∈ (plannerFrom cas).execution_plan.map (·.expr_key)
        ↔ k ∈ cas.map (·.expr_key))
    ∧ (∀ (i j : ℕ) (x y : ConcreteAggregation) (ux uy : PlannerOutputUnit),
        cas[i]? = some x → cas[j]? = some y → x.expr_key = y.expr_key →
        (plannerFrom cas).output_plan[i]? = some ux →
        (plannerFrom cas).output_plan[j]? = some uy →
        ux.expr_index = uy.expr_index)
    ∧ (∃ rec, finalizeProgram (plannerFrom cas)
          (stepRecords (plannerFrom cas).execution_plan recs
            ((plannerFrom cas).instantiate_aggregators)) = some rec
        ∧ rec.length = cas.length) := by
  obtain ⟨hA, hB, hMem, hC, news, hnews, hD⟩ := plannerFold_spec cas ⟨[], []⟩
  have hout : (plannerFrom cas).output_plan = news := by
    show (cas.foldl plannerStep ⟨[], []⟩).output_plan = news
    rw [hnews]
    rfl
  have hDout : ∀ (t : ℕ) (u : PlannerOutputUnit),
      (plannerFrom cas).output_plan[t]? = some u →
      ∃ a, cas[t]? = some a
        ∧ u.agg_name = a.agg_name ∧ u.agg_method = a.method
        ∧ outUnitWF (plannerFrom cas).execution_plan u
        ∧ ∃ eu, (plannerFrom cas).execution_plan[u.expr_index]? = some eu
            ∧ eu.expr_key = a.expr_key := by
    intro t u ht
    rw [hout] at ht
    exact hD t u ht
  have hlen : (plannerFrom cas).output_plan.length = cas.length := by
    have := congrArg List.length hA
    simpa using this
  have hnodup : ((plannerFrom cas).execution_plan.map (·.expr_key)).Nodup :=
    hB (by simp)
  refine ⟨hlen, ?_, ?_, hnodup, ?_, ?_, ?_⟩
  · have := congrArg (List.map Prod.fst) hA
    simpa [List.map_map, Function.comp] using this
  · have := congrArg (List.map Prod.snd) hA
    simpa [List.map_map, Function.comp] using this
  · intro k
    have := hMem k
    simpa using this
  · intro i j x y ux uy hx hy hkey hux huy
    obtain ⟨ax, hax, -, -, -, eux, heux, hkeyx⟩ := hDout i ux hux
    obtain ⟨ay, hay, -, -, -, euy, heuy, hkeyy⟩ := hDout j uy huy
    have hxx : ax = x := by injection (hax.symm.trans hx)
    have hyy : ay = y := by injection (hay.symm.trans hy)
    subst hxx hyy
    refine nodup_map_idx (·.expr_key) (plannerFrom cas).execution_plan hnodup
      ux.expr_index uy.expr_index eux euy heux heuy ?_
    show eux.expr_key = euy.expr_key
    rw [hkeyx, hkeyy, hkey]
  · have hwf : ∀ u ∈ (plannerFrom cas).output_plan,
        outUnitWF (plannerFrom cas).execution_plan u := by
      intro u hu
      obtain ⟨t, ht⟩ := List.mem_iff_getElem?.1 hu
      obtain ⟨-, -, -, -, hwfu, -⟩ := hDout t u ht
      exact hwfu
    have hshape := stepRecords_shape _ recs _ (instantiate_shape (plannerFrom cas))
    have hshape' := finalize_shape _ _ hshape
    obtain ⟨vals, hvals, hvlen⟩ := results_some _ _ hwf hshape'
    refine ⟨vals.map DynamicValue.serialize_as_bytes, ?_, ?_⟩
    · have hfp : finalizeProgram (plannerFrom cas)
          (stepRecords (plannerFrom cas).execution_plan recs
            ((plannerFrom cas).instantiate_aggregators))
          = ((plannerFrom cas).results
              ((stepRecords (plannerFrom cas).execution_plan recs
                ((plannerFrom cas).instantiate_aggregators)).map
                  CompositeAggregator.finalize)).map
              (·.map DynamicValue.serialize_as_bytes) := rfl
      rw [hfp, hvals]
      rfl
    · rw [List.length_map, hvlen, hlen]

/-- Witness for C1: `count(x)` and `min(x)` share the key `x` and are
routed to the same execution unit. -/
theorem planner_output_alignment_witness :
    (⟨0, 0, "c", .Count⟩ : PlannerOutputUnit).expr_index
      = (⟨0, 1, "lo", .Min⟩ : PlannerOutputUnit).expr_index :=
  (planner_output_alignment
    [⟨"c", .Count, some (.Column 0), "x"⟩, ⟨"lo", .Min, some (.Column 0), "x"⟩]
    []).2.2.2.2.2.1 0 1 _ _ ⟨0, 0, "c", .Count⟩ ⟨0, 1, "lo", .Min⟩ rfl rfl rfl rfl rfl

theorem freshAtom_finalize (k : AtomKind) :
    Aggregator.finalizeAtom (Aggregator.freshAtom k) = Aggregator.freshAtom k := by
  cases k <;> rfl

theorem finalize_fresh (c : CompositeAggregator)
    (h : ∀ x ∈ c.methods, x = Aggregator.freshAtom x.atomKind) : c.finalize = c := by
  cases c with
  | mk ms =>
    simp only [CompositeAggregator.finalize]
    congr 1
    refine (List.map_congr_left fun a ha => ?_).trans (List.map_id ms)
    show Aggregator.finalizeAtom a = a
    rw [h a ha]
    exact freshAtom_finalize _

theorem fresh_final_value (mth : ConcreteAggregationMethod) :
    ∃ v, (Aggregator.freshAtom (ConcreteAggregationMethod.methodAtomKind mth)).getFinalValue
        mth = some v ∧ v.serialize_as_bytes = emptyStreamField mth := by
  cases mth <;> exact ⟨_, rfl, rfl⟩

/-- C10: over the empty record stream (zero `add` calls), `sum` serializes
to the byte string `"0"` while min, max, mean, the variances, the medians,
first, last, the lexicographic extents and mode all serialize to empty
bytes; the full empty-stream record is `emptyStreamField` applied along
the output plan, for every aggregation list. -/
theorem empty_stream_results (cas : List ConcreteAggregation) :
    (finalizeProgram (plannerFrom cas) ((plannerFrom cas).instantiate_aggregators)
      = some ((plannerFrom cas).output_plan.map (fun u => emptyStreamField u.agg_method)))
    ∧ emptyStreamField .Sum = "0"
    ∧ emptyStreamField .Min = "" ∧ emptyStreamField .Max = ""
    ∧ emptyStreamField .Mean = "" ∧ emptyStreamField .VarPop = ""
    ∧ emptyStreamField .VarSample = ""
    ∧ (∀ mt, emptyStreamField (.Median mt) = "")
    ∧ emptyStreamField .First = "" ∧ emptyStreamField .Last = ""
    ∧ emptyStreamField .LexFirst = "" ∧ emptyStreamField .LexLast = ""
    ∧ emptyStreamField .Mode = "" := by
  refine ⟨?_, rfl, rfl, rfl, rfl, rfl, rfl, fun mt => rfl, rfl, rfl, rfl, rfl, rfl⟩
  have hPF : plannerFrom cas = cas.foldl plannerStep ⟨[], []⟩ := rfl
  rw [hPF]
  obtain ⟨hA, hB, hMem, hC, news, hnews, hD⟩ := plannerFold_spec cas ⟨[], []⟩
  have hout : (cas.foldl plannerStep ⟨[], []⟩).output_plan = news := by
    rw [hnews]
    rfl
  have hfresh : ∀ eu ∈ (cas.foldl plannerStep ⟨[], []⟩).execution_plan,
      ∀ x ∈ eu.aggregator_blueprint.methods, x = Aggregator.freshAtom x.atomKind :=
    plannerFold_fresh cas ⟨[], []⟩ (fun eu heu => (by simp at heu))
  have hfin : ((cas.foldl plannerStep ⟨[], []⟩).instantiate_aggregators).map
        CompositeAggregator.finalize
      = (cas.foldl plannerStep ⟨[], []⟩).instantiate_aggregators := by
    refine (List.map_congr_left (fun c hc => ?_)).trans (List.map_id _)
    show c.finalize = id c
    obtain ⟨eu, heu, hbp⟩ := List.mem_map.1 hc
    rw [← hbp]
    exact finalize_fresh _ (hfresh eu heu)
  have hper : ∀ u : PlannerOutputUnit, u ∈ (cas.foldl plannerStep ⟨[], []⟩).output_plan →
      ∃ v, ((((cas.foldl plannerStep ⟨[], []⟩).instantiate_aggregators)[u.expr_index]?).bind
          fun agg => (agg.methods[u.aggregator_index]?).bind
            fun atom => atom.getFinalValue u.agg_method) = some v
        ∧ v.serialize_as_bytes = emptyStreamField u.agg_method := by
    intro u hu
    obtain ⟨t, ht⟩ := List.mem_iff_getElem?.1 hu
    rw [hout] at ht
    obtain ⟨a, -, -, -, hwfu, -⟩ := hD t u ht
    obtain ⟨eu, heu, atom, hatom, hkind⟩ := hwfu
    have hinst : ((cas.foldl plannerStep ⟨[], []⟩).instantiate_aggregators)[u.expr_index]?
        = some eu.aggregator_blueprint := by
      unfold ConcreteAggregationPlanner.instantiate_aggregators
      rw [List.getElem?_map, heu]
      rfl
    have hafresh : atom = Aggregator.freshAtom atom.atomKind :=
      hfresh eu (List.getElem?_mem heu) atom (List.getElem?_mem hatom)
    obtain ⟨v, hv, hs⟩ := fresh_final_value u.agg_method
    refine ⟨v, ?_, hs⟩
    rw [hinst]
    show (eu.aggregator_blueprint.methods[u.aggregator_index]?).bind
        (fun atom => atom.getFinalValue u.agg_method) = some v
    rw [hatom]
    show atom.getFinalValue u.agg_method = some v
    rw [hafresh, hkind]
    exact hv
  obtain ⟨ys, hys, hmap⟩ := mapM_map_rel _ DynamicValue.serialize_as_bytes
    (fun u : PlannerOutputUnit => emptyStreamField u.agg_method) _ hper
  have hfp : finalizeProgram (cas.foldl plannerStep ⟨[], []⟩)
      ((cas.foldl plannerStep ⟨[], []⟩).instantiate_aggregators)
      = ((cas.foldl plannerStep ⟨[], []⟩).results
          (((cas.foldl plannerStep ⟨[], []⟩).instantiate_aggregators).map
            CompositeAggregator.finalize)).map
          (·.map DynamicValue.serialize_as_bytes) := rfl
  rw [hfp, hfin]
  have hres : (cas.foldl plannerStep ⟨[], []⟩).results
      ((cas.foldl plannerStep ⟨[], []⟩).instantiate_aggregators) = some ys := hys
  rw [hres]
  simp only [Option.map_some']
  rw [hmap]

theorem concretize_props : ∀ (aggs : List Aggregation) (headers : List String)
    (cas : List ConcreteAggregation),
    concretize_aggregations aggs headers = .ok cas →
    cas.length = aggs.length
    ∧ ∀ (t : ℕ) (ca : ConcreteAggregation), cas[t]? = some ca →
        ∃ ag : Aggregation, aggs[t]? = some ag
          ∧ ca.expr_key = ag.expr_key
          ∧ (ca.expr = Option.none ↔ ag.args = [])
          ∧ (ca.expr = Option.none → ca.method = ConcreteAggregationMethod.Count)
  | [], headers, cas, h => by
    rw [concretize_aggregations] at h
    injection h with h
    subst h
    exact ⟨rfl, fun t ca ht => (by simp at ht)⟩
  | aggregation :: rest, headers, cas, h => by
    rw [concretize_aggregations] at h
    cases hval : validate_aggregation_function_arity aggregation with
    | error e => rw [hval] at h; cases h
    | ok u =>
      rw [hval] at h
      cases hexpr : (match aggregation.args.head? with
          | some arg => (concretize_expression arg headers).map some
          | Option.none => Except.ok Option.none) with
      | error e => rw [hexpr] at h; cases h
      | ok expr =>
        rw [hexpr] at h
        cases hpm : ConcreteAggregationMethod.parseName aggregation.func_name with
        | none => rw [hpm] at h; cases h
        | some method =>
          rw [hpm] at h
          cases htail : concretize_aggregations rest headers with
          | error e => rw [htail] at h; cases h
          | ok tail =>
            rw [htail] at h
            injection h with h
            subst h
            obtain ⟨ihlen, ihprops⟩ := concretize_props rest headers tail htail
            have hexprn : expr = Option.none ↔ aggregation.args = [] := by
              cases hargs : aggregation.args.head? with
              | none =>
                rw [hargs] at hexpr
                have hexpr' : (Except.ok Option.none : Except ConcretizationError
                    (Option ConcreteArgument)) = Except.ok expr := hexpr
                injection hexpr' with hexpr'
                subst hexpr' 
                cases hargl : aggregation.args with
                | nil => simp
                | cons a as_ => rw [hargl] at hargs; cases hargs
              | some arg =>
                rw [hargs] at hexpr
                have hexpr' : Except.map some (concretize_expression arg headers)
                    = Except.ok expr := hexpr
                cases hce : concretize_expression arg headers with
                | error e => rw [hce, Except.map] at hexpr'; cases hexpr'
                | ok carg =>
                  rw [hce, Except.map] at hexpr'
                  injection hexpr' with hexpr'
                  subst hexpr'
                  constructor
                  · intro habs
                    cases habs
                  · intro habs
                    rw [habs] at hargs
                    cases hargs
            refine ⟨by simp [ihlen], ?_⟩
            intro t ca ht
            cases t with
            | zero =>
              simp only [List.getElem?_cons_zero, Option.some.injEq] at ht
              subst ht
              refine ⟨aggregation, by simp, rfl, hexprn, ?_⟩
              intro hnone
              simp only at hnone
              have hargs0 : aggregation.args = [] := hexprn.1 hnone
              have harity : aggregation.func_name = "count" := by
                unfold validate_aggregation_function_arity at hval
                by_cases hc : aggregation.func_name = "count"
                · exact hc
                · rw [if_neg hc, hargs0] at hval
                  simp at hval
              rw [harity] at hpm
              unfold ConcreteAggregationMethod.parseName at hpm
              simp at hpm
              simp only
              rw [← hpm]
            | succ t' =>
              simp only [List.getElem?_cons_succ] at ht ⊢
              exact ihprops t' ca ht

/-- C9: for every program built by `parse` — modelled as concretization of
a parsed aggregation list whose canonical expression keys determine
whether the argument expression is present — every output-plan entry
points, in bounds, at an atom of the kind its method requires, execution
units with an absent expression hold only Count atoms, and consequently
`run_with_record` never reaches the `unreachable!` arms (never panics)
and finalization never panics, over any record stream. -/
theorem planner_pointers_sound (parsed : List Aggregation) (headers : List String)
    (cas : List ConcreteAggregation)
    (hkeys : ∀ x ∈ parsed, ∀ y ∈ parsed, x.expr_key = y.expr_key →
      (x.args = [] ↔ y.args = []))
    (hok : concretize_aggregations parsed headers = .ok cas) :
    (∀ u ∈ (plannerFrom cas).output_plan, outUnitWF (plannerFrom cas).execution_plan u)
    ∧ absentExprOnlyCount (plannerFrom cas).execution_plan
    ∧ (∀ (recs : List (ℕ × List String)) (index : ℕ) (record : List String),
        (run_with_record_on_aggregators (plannerFrom cas).execution_plan
          (stepRecords (plannerFrom cas).execution_plan recs
            ((plannerFrom cas).instantiate_aggregators)) index record).2
          ≠ some .panicked)
    ∧ (∀ recs : List (ℕ × List String),
        (finalizeProgram (plannerFrom cas)
          (stepRecords (plannerFrom cas).execution_plan recs
            ((plannerFrom cas).instantiate_aggregators))).isSome) := by
  obtain ⟨hclen, hcprops⟩ := concretize_props parsed headers cas hok
  obtain ⟨hA, hB, hMem, hC, news, hnews, hD⟩ := plannerFold_spec cas ⟨[], []⟩
  have hout : (plannerFrom cas).output_plan = news := by
    show (cas.foldl plannerStep ⟨[], []⟩).output_plan = news
    rw [hnews]
    rfl
  have hwf : ∀ u ∈ (plannerFrom cas).output_plan,
      outUnitWF (plannerFrom cas).execution_plan u := by
    intro u hu
    obtain ⟨t, ht⟩ := List.mem_iff_getElem?.1 hu
    rw [hout] at ht
    obtain ⟨-, -, -, -, hwfu, -⟩ := hD t u ht
    exact hwfu
  have hcasA : ∀ x ∈ cas, ∀ y ∈ cas, x.expr_key = y.expr_key →
      (x.expr = Option.none ↔ y.expr = Option.none) := by
    intro x hx y hy hxy
    obtain ⟨i, hi⟩ := List.mem_iff_getElem?.1 hx
    obtain ⟨j, hj⟩ := List.mem_iff_getElem?.1 hy
    obtain ⟨agx, hagx, hkx, hex, -⟩ := hcprops i x hi
    obtain ⟨agy, hagy, hky, hey, -⟩ := hcprops j y hj
    have hagkeys : agx.expr_key = agy.expr_key := by
      rw [← hkx, ← hky, hxy]
    rw [hex, hey]
    exact hkeys agx (List.getElem?_mem hagx) agy (List.getElem?_mem hagy) hagkeys
  have hcasB : ∀ x ∈ cas, x.expr = Option.none →
      x.method = ConcreteAggregationMethod.Count := by
    intro x hx hnone
    obtain ⟨i, hi⟩ := List.mem_iff_getElem?.1 hx
    obtain ⟨agx, -, -, -, hcount⟩ := hcprops i x hi
    exact hcount hnone
  have honly : absentExprOnlyCount (plannerFrom cas).execution_plan :=
    plannerFold_onlyCount cas ⟨[], []⟩ hcasA hcasB
      (fun eu heu => (by simp at heu))
  have hshape : ∀ recs : List (ℕ × List String),
      aggsShapeOK (plannerFrom cas).execution_plan
        (stepRecords (plannerFrom cas).execution_plan recs
          ((plannerFrom cas).instantiate_aggregators)) :=
    fun recs => stepRecords_shape _ recs _ (instantiate_shape (plannerFrom cas))
  have hcnt : ∀ (recs : List (ℕ × List String)) (i : ℕ) (u : PlannerExecutionUnit)
      (a : CompositeAggregator),
      (plannerFrom cas).execution_plan[i]? = some u →
      (stepRecords (plannerFrom cas).execution_plan recs
        ((plannerFrom cas).instantiate_aggregators))[i]? = some a →
      u.expr = Option.none → ∀ x ∈ a.methods, x.atomKind = AtomKind.CountK := by
    intro recs i u a hu ha hnone x hx
    obtain ⟨-, hkinds⟩ := hshape recs
    have hkind_eq := hkinds i
    rw [hu, ha] at hkind_eq
    simp only [Option.map_some'] at hkind_eq
    injection hkind_eq with hkind_eq
    have hbp : ∀ y ∈ u.aggregator_blueprint.methods, y.atomKind = AtomKind.CountK :=
      honly u (List.getElem?_mem hu) hnone
    have hmemk : x.atomKind ∈ u.aggregator_blueprint.methods.map Aggregator.atomKind := by
      rw [← hkind_eq]
      exact List.mem_map.2 ⟨x, hx, rfl⟩
    obtain ⟨y, hy, hyx⟩ := List.mem_map.1 hmemk
    rw [← hyx]
    exact hbp y hy
  refine ⟨hwf, honly, ?_, ?_⟩
  · intro recs index record
    exact (runWR_spec index record (plannerFrom cas).execution_plan _).2.2.1
      (hcnt recs)
  · intro recs
    obtain ⟨vals, hvals, -⟩ := results_some _ _ hwf (finalize_shape _ _ (hshape recs))
    have hfp : finalizeProgram (plannerFrom cas)
        (stepRecords (plannerFrom cas).execution_plan recs
          ((plannerFrom cas).instantiate_aggregators))
        = ((plannerFrom cas).results
            ((stepRecords (plannerFrom cas).execution_plan recs
              ((plannerFrom cas).instantiate_aggregators)).map
                CompositeAggregator.finalize)).map
            (·.map DynamicValue.serialize_as_bytes) := rfl
    rw [hfp, hvals]
    rfl

/-- Witness for C9 on a concrete `count(), sum(x)` program. -/
theorem planner_pointers_sound_witness :
    absentExprOnlyCount (plannerFrom
      [⟨"c", .Count, Option.none, "count()"⟩,
       ⟨"s", .Sum, some (.Column 0), "x"⟩]).execution_plan :=
  (planner_pointers_sound
    [⟨"c", "count", [], "count()"⟩, ⟨"s", "sum", [.ident "x"], "x"⟩] ["x"]
    [⟨"c", .Count, Option.none, "count()"⟩, ⟨"s", .Sum, some (.Column 0), "x"⟩]
    (by decide) rfl).2.1

/-- C3 counterexample: for the program `count(x) as c, min(x) as lo` and
the record `abc`, `run_with_record` returns an evaluation error, yet the
Count atom has already observed the record (it counted the row before the
Extent atom raised the coercion error): the aggregation state is not
unchanged on error. -/
theorem run_error_mutates_state :
    ((run_with_record_on_aggregators
        (plannerFrom [⟨"c", .Count, some (.Column 0), "x"⟩,
                      ⟨"lo", .Min, some (.Column 0), "x"⟩]).execution_plan
        ((plannerFrom [⟨"c", .Count, some (.Column 0), "x"⟩,
                       ⟨"lo", .Min, some (.Column 0), "x"⟩]).instantiate_aggregators)
        0 ["abc"]).2
      = some (.call "<agg-expr: x>" .CannotCoerceToNumber))
    ∧ ((run_with_record_on_aggregators
        (plannerFrom [⟨"c", .Count, some (.Column 0), "x"⟩,
                      ⟨"lo", .Min, some (.Column 0), "x"⟩]).execution_plan
        ((plannerFrom [⟨"c", .Count, some (.Column 0), "x"⟩,
                       ⟨"lo", .Min, some (.Column 0), "x"⟩]).instantiate_aggregators)
        0 ["abc"]).1
      = [⟨[.Count ⟨1⟩, .Extent ⟨Option.none⟩]⟩])
    ∧ ((plannerFrom [⟨"c", .Count, some (.Column 0), "x"⟩,
                     ⟨"lo", .Min, some (.Column 0), "x"⟩]).instantiate_aggregators
      = [⟨[.Count ⟨0⟩, .Extent ⟨Option.none⟩]⟩]) := by
  refine ⟨by decide, by decide, by decide⟩

theorem unitStep_eval_err (u : PlannerExecutionUnit) (a : CompositeAggregator)
    (index : ℕ) (record : List String) (ee : CallError)
    (hev : (match u.expr with
      | Option.none => Except.ok Option.none
      | some ex => (eval_expr ex record).map some) = Except.error ee) :
    unitStep u a index record = (a, some (.evalFail ee)) := by
  unfold unitStep
  rw [hev]

theorem unitStep_eval_ok (u : PlannerExecutionUnit) (a : CompositeAggregator)
    (index : ℕ) (record : List String) (vopt : Option DynamicValue)
    (hev : (match u.expr with
      | Option.none => Except.ok Option.none
      | some ex => (eval_expr ex record).map some) = Except.ok vopt) :
    unitStep u a index record
      = ((a.process_value index vopt).1,
         match (a.process_value index vopt).2 with
         | some (.call ce) => some (.call ("<agg-expr: " ++ u.expr_key ++ ">") ce)
         | some .unreachableReached => some .panicked
         | Option.none => Option.none) := by
  unfold unitStep
  rw [hev]
  cases hq : a.process_value index vopt with
  | mk st pe =>
    simp only [hq]
    cases pe with
    | none => rfl
    | some pe' => cases pe' <;> rfl

theorem unitStep_err_partial (u : PlannerExecutionUnit) (a : CompositeAggregator)
    (index : ℕ) (record : List String) (e : RunError)
    (h : (unitStep u a index record).2 = some e) :
    ((∃ ee, e = .evalFail ee) ∧ (unitStep u a index record).1 = a)
    ∨ (∃ vopt, (match u.expr with
        | Option.none => Except.ok Option.none
        | some ex => (eval_expr ex record).map some) = Except.ok vopt
      ∧ ∃ (m : ℕ) (atom : Aggregator) (pe : PErr),
          a.methods[m]? = some atom
          ∧ processAtom index vopt atom = .error pe
          ∧ e = (match pe with
                 | .call ce => RunError.call ("<agg-expr: " ++ u.expr_key ++ ">") ce
                 | .unreachableReached => RunError.panicked)
          ∧ (∀ t : ℕ, m ≤ t →
              ((unitStep u a index record).1).methods[t]? = a.methods[t]?)
          ∧ (∀ (j : ℕ) (b : Aggregator), j < m → a.methods[j]? = some b →
              ∃ b', processAtom index vopt b = .ok b'
                ∧ ((unitStep u a index record).1).methods[j]? = some b')) := by
  cases hev : (match u.expr with
      | Option.none => Except.ok Option.none
      | some ex => (eval_expr ex record).map some) with
  | error ee =>
    have h1 : unitStep u a index record = (a, some (.evalFail ee)) :=
      unitStep_eval_err u a index record ee hev
    rw [h1] at h
    injection h with h'
    exact Or.inl ⟨⟨ee, h'.symm⟩, by rw [h1]⟩
  | ok vopt =>
    have hu1 : (unitStep u a index record).1 = (a.process_value index vopt).1 := by
      rw [unitStep_eval_ok u a index record vopt hev]
    have h2 : (unitStep u a index record).2
        = (match (a.process_value index vopt).2 with
           | some (.call ce) => some (RunError.call ("<agg-expr: " ++ u.expr_key ++ ">") ce)
           | some .unreachableReached => some RunError.panicked
           | Option.none => Option.none) := by
      rw [unitStep_eval_ok u a index record vopt hev]
    rw [h2] at h
    cases hpe : (a.process_value index vopt).2 with
    | none =>
      rw [hpe] at h
      simp at h
    | some pe =>
      rw [hpe] at h
      have hpa : (processAtoms index vopt a.methods).2 = some pe := by
        have hx := hpe
        rw [process_value_eq] at hx
        exact hx
      obtain ⟨m, atom, hatom, herr, hsuf, hpre⟩ :=
        (processAtoms_spec index vopt a.methods).2.2.2 pe hpa
      have hmeth : ((unitStep u a index record).1).methods
          = (processAtoms index vopt a.methods).1 := by
        rw [hu1, process_value_eq]
      refine Or.inr ⟨vopt, ?_, m, atom, pe, hatom, herr, ?_, ?_, ?_⟩
      · rfl
      · cases pe with
        | call ce =>
          have h' : some (RunError.call ("<agg-expr: " ++ u.expr_key ++ ">") ce) = some e := h
          injection h' with h''
          exact h''.symm
        | unreachableReached =>
          have h' : some RunError.panicked = some e := h
          injection h' with h''
          exact h''.symm
      · intro t ht
        rw [hmeth]
        exact hsuf t ht
      · intro j b hj hb
        obtain ⟨b', hb', hout⟩ := hpre j b hj hb
        exact ⟨b', hb', by rw [hmeth]; exact hout⟩

/-- C3 (amended): when `run_with_record` returns an error the state may
have partially observed the record — execution units before the failing
one processed it fully, later units are unchanged, and within the failing
unit: if the expression evaluation itself failed the unit is entirely
unchanged, otherwise the evaluation produced a value and there is a
failing atom index `m` (whose atom raised exactly the returned error)
such that every atom before `m` processed the value while the atom at
`m` and every atom after it are unchanged. -/
theorem run_error_prefix_processed (units : List PlannerExecutionUnit)
    (aggs : List CompositeAggregator) (index : ℕ) (record : List String) (e : RunError)
    (h : (run_with_record_on_aggregators units aggs index record).2 = some e) :
    ∃ k : ℕ,
      (∀ j : ℕ, k < j →
        (run_with_record_on_aggregators units aggs index record).1[j]? = aggs[j]?)
      ∧ (∀ j : ℕ, j < k → ∃ u' a', units[j]? = some u' ∧ aggs[j]? = some a'
          ∧ (unitStep u' a' index record).2 = Option.none
          ∧ (run_with_record_on_aggregators units aggs index record).1[j]?
              = some (unitStep u' a' index record).1)
      ∧ ∃ u a, units[k]? = some u ∧ aggs[k]? = some a
          ∧ (unitStep u a index record).2 = some e
          ∧ (run_with_record_on_aggregators units aggs index record).1[k]?
              = some (unitStep u a index record).1
          ∧ (((∃ ee, e = .evalFail ee) ∧ (unitStep u a index record).1 = a)
             ∨ (∃ vopt, (match u.expr with
                  | Option.none => Except.ok Option.none
                  | some ex => (eval_expr ex record).map some) = Except.ok vopt
                ∧ ∃ (m : ℕ) (atom : Aggregator) (pe : PErr),
                    a.methods[m]? = some atom
                    ∧ processAtom index vopt atom = .error pe
                    ∧ e = (match pe with
                           | .call ce =>
                              RunError.call ("<agg-expr: " ++ u.expr_key ++ ">") ce
                           | .unreachableReached => RunError.panicked)
                    ∧ (∀ t : ℕ, m ≤ t →
                        ((unitStep u a index record).1).methods[t]? = a.methods[t]?)
                    ∧ (∀ (j : ℕ) (b : Aggregator), j < m → a.methods[j]? = some b →
                        ∃ b', processAtom index vopt b = .ok b'
                          ∧ ((unitStep u a index record).1).methods[j]? = some b'))) := by
  obtain ⟨k, u, a, hu, ha, hstep, hout, hsuf, hpre⟩ :=
    (runWR_spec index record units aggs).2.2.2 e h
  exact ⟨k, hsuf, hpre, u, a, hu, ha, hstep, hout,
    unitStep_err_partial u a index record e hstep⟩

/-- Witness for C3 at the concrete failing run of the counterexample
program. -/
theorem run_error_prefix_processed_witness :
    ∃ k : ℕ,
      (∀ j : ℕ, k < j →
        (run_with_record_on_aggregators
          (plannerFrom [⟨"c", .Count, some (.Column 0), "x"⟩,
                        ⟨"lo", .Min, some (.Column 0), "x"⟩]).execution_plan
          [⟨[.Count ⟨0⟩, .Extent ⟨Option.none⟩]⟩] 0 ["abc"]).1[j]?
          = [(⟨[.Count ⟨0⟩, .Extent ⟨Option.none⟩]⟩ : CompositeAggregator)][j]?)
      ∧ (∀ j : ℕ, j < k → ∃ u' a',
          (plannerFrom [⟨"c", .Count, some (.Column 0), "x"⟩,
                        ⟨"lo", .Min, some (.Column 0), "x"⟩]).execution_plan[j]? = some u'
          ∧ [(⟨[.Count ⟨0⟩, .Extent ⟨Option.none⟩]⟩ : CompositeAggregator)][j]? = some a'
          ∧ (unitStep u' a' 0 ["abc"]).2 = Option.none
          ∧ (run_with_record_on_aggregators
              (plannerFrom [⟨"c", .Count, some (.Column 0), "x"⟩,
                            ⟨"lo", .Min, some (.Column 0), "x"⟩]).execution_plan
              [⟨[.Count ⟨0⟩, .Extent ⟨Option.none⟩]⟩] 0 ["abc"]).1[j]?
              = some (unitStep u' a' 0 ["abc"]).1)
      ∧ ∃ u a,
          (plannerFrom [⟨"c", .Count, some (.Column 0), "x"⟩,
                        ⟨"lo", .Min, some (.Column 0), "x"⟩]).execution_plan[k]? = some u
          ∧ [(⟨[.Count ⟨0⟩, .Extent ⟨Option.none⟩]⟩ : CompositeAggregator)][k]? = some a
          ∧ (unitStep u a 0 ["abc"]).2 = some (.call "<agg-expr: x>" .CannotCoerceToNumber)
          ∧ (run_with_record_on_aggregators
              (plannerFrom [⟨"c", .Count, some (.Column 0), "x"⟩,
                            ⟨"lo", .Min, some (.Column 0), "x"⟩]).execution_plan
              [⟨[.Count ⟨0⟩, .Extent ⟨Option.none⟩]⟩] 0 ["abc"]).1[k]?
              = some (unitStep u a 0 ["abc"]).1
          ∧ (((∃ ee, (RunError.call "<agg-expr: x>" CallError.CannotCoerceToNumber)
                  = RunError.evalFail ee) ∧ (unitStep u a 0 ["abc"]).1 = a)
             ∨ (∃ vopt, (match u.expr with
                  | Option.none => Except.ok Option.none
                  | some ex => (eval_expr ex ["abc"]).map some) = Except.ok vopt
                ∧ ∃ (m : ℕ) (atom : Aggregator) (pe : PErr),
                    a.methods[m]? = some atom
                    ∧ processAtom 0 vopt atom = .error pe
                    ∧ (RunError.call "<agg-expr: x>" CallError.CannotCoerceToNumber)
                        = (match pe with
                           | .call ce =>
                              RunError.call ("<agg-expr: " ++ u.expr_key ++ ">") ce
                           | .unreachableReached => RunError.panicked)
                    ∧ (∀ t : ℕ, m ≤ t →
                        ((unitStep u a 0 ["abc"]).1).methods[t]? = a.methods[t]?)
                    ∧ (∀ (j : ℕ) (b : Aggregator), j < m → a.methods[j]? = some b →
                        ∃ b', processAtom 0 vopt b = .ok b'
                          ∧ ((unitStep u a 0 ["abc"]).1).methods[j]? = some b'))) :=
  run_error_prefix_processed
    (plannerFrom [⟨"c", .Count, some (.Column 0), "x"⟩,
                  ⟨"lo", .Min, some (.Column 0), "x"⟩]).execution_plan
    [⟨[.Count ⟨0⟩, .Extent ⟨Option.none⟩]⟩] 0 ["abc"]
    (.call "<agg-expr: x>" .CannotCoerceToNumber) (by decide)
